import Mathlib

/-!
Verification of the EMU streaming raster format driver (ubarsc/emuformat).

This file gives a shallow embedding, over `List Nat` byte sequences, of the
parts of the driver that the checked claims are about:

* the tile codec wrappers `doCompression` / `doUncompression`
  (src/src/emucompress.cpp) — the zlib codec itself is treated as an opaque
  inverse pair (`Codec` below);
* the metadata codec `doCompressMetadata` / `doUncompressMetadata`
  (src/src/emucompress.cpp) together with an embedding of the GDAL CSL
  string-list primitives (`CSLSetNameValue` / `CSLFetchNameValue`) they and
  `EMUDataset::SetMetadataItem` are built on;
* the tile index `m_tileOffsets` with its `insert` / `operator[]` access
  (`setTileOffset` / `getTileOffset`, src/src/emudataset.cpp);
* the block engine `EMURasterBand::IReadBlock` / `IWriteBlock`
  (src/src/emuband.cpp);
* the raster attribute table write / read paths for Integer columns and the
  chunk-index (de)serialisation `EMURat::WriteIndex` / `ReadIndex`
  (src/src/emurat.cpp);
* the container footer writer `EMUDataset::Close` and the footer reader
  `EMUDataset::Open` (src/src/emudataset.cpp), byte for byte.

Machine integers are embedded as `Nat` / `Int`; all on-disk fields are
little-endian byte lists produced by `leBytes`.  IEEE-754 doubles only ever
cross the embedded code as opaque 8-byte patterns, so they are carried as
`Nat` bit patterns below 2^64.
-/

namespace EMU

/-! ### Little-endian byte encoding -/

/-- `k` little-endian bytes of `n` (the layout of the u16/u32/u64 fields the
driver writes with `VSIFWriteL` on a little-endian host). -/
def leBytes : Nat → Nat → List Nat
  | 0, _ => []
  | k + 1, n => n % 256 :: leBytes k (n / 256)

def u64le (n : Nat) : List Nat := leBytes 8 n

def u32le (n : Nat) : List Nat := leBytes 4 n

def u16le (n : Nat) : List Nat := leBytes 2 n

/-- Decode a little-endian byte list into a `Nat`. -/
def leDec : List Nat → Nat
  | [] => 0
  | b :: rest => b + 256 * leDec rest

/-- Two's-complement encoding of an `int64_t` field. -/
def i64le (v : Int) : List Nat := leBytes 8 (v.emod 18446744073709551616).toNat

/-- Two's-complement decoding of an `int64_t` field. -/
def i64dec (bs : List Nat) : Int :=
  let n := leDec bs
  if n < 9223372036854775808 then (n : Int) else (n : Int) - 18446744073709551616

/-- Narrowing an `int64_t` value to a C `int` (32-bit two's complement),
as happens in `pnData[nCopiedRows] = pData[nElsToSkipAtStart]`. -/
def toInt32 (v : Int) : Int :=
  let m := v.emod 4294967296
  if m < 2147483648 then m else m - 4294967296

/-- ASCII bytes of a Lean string (used for fixed key names and magic bytes). -/
def strBytes (s : String) : List Nat := s.data.map Char.toNat

/-- `memcpy`-style overwrite of `src.length` bytes of `dst` starting at `pos`. -/
def writeSlice (dst : List Nat) (pos : Nat) (src : List Nat) : List Nat :=
  dst.take pos ++ src ++ dst.drop (pos + src.length)

/-! ### The codec (src/src/emucompress.cpp)

The zlib pair is out of scope (spec §1) and is treated as an opaque inverse
pair: any `comp`/`decomp` with `decomp (comp bs) = bs`.  `doUncompression`
inflates with `avail_out = outSize`, i.e. it writes at most `outSize` bytes
of the decompressed stream into the caller's buffer and leaves the rest of
the buffer untouched. -/

structure Codec where
  comp : List Nat → List Nat
  decomp : List Nat → List Nat
  inv : ∀ bs, decomp (comp bs) = bs

/-- The identity codec (a legitimate instance: `COMPRESSION_NONE` semantics). -/
def idCodec : Codec := ⟨fun bs => bs, fun bs => bs, fun _ => rfl⟩

def COMPRESSION_NONE : Nat := 0

def COMPRESSION_ZLIB : Nat := 1

/-- `doCompression` (src/src/emucompress.cpp:37): `NONE` aliases the input,
`ZLIB` deflates, an unknown discriminant returns nullptr (modelled `[]`;
the driver only ever passes `COMPRESSION_ZLIB`). -/
def doCompression (c : Codec) (type : Nat) (input : List Nat) : List Nat :=
  if type = COMPRESSION_NONE then input
  else if type = COMPRESSION_ZLIB then c.comp input
  else []

/-- `doUncompression` (src/src/emucompress.cpp:76) writing into a caller
buffer `buf`: `NONE` memcpys the input, `ZLIB` inflates at most `outSize`
bytes, an unknown discriminant leaves the buffer untouched. -/
def doUncompression (c : Codec) (type : Nat) (input : List Nat) (buf : List Nat)
    (outSize : Nat) : List Nat :=
  if type = COMPRESSION_NONE then writeSlice buf 0 input
  else if type = COMPRESSION_ZLIB then writeSlice buf 0 ((c.decomp input).take outSize)
  else buf

/-! ### The tile index (src/include/emudataset.h, src/src/emudataset.cpp)

`m_tileOffsets` is a `std::unordered_map<EMUTileKey, EMUTileValue>`.  It is
embedded as an association list; `std::unordered_map::insert` does not
overwrite an existing key, and `operator[]` default-inserts a
value-initialised entry on a miss (and never throws `std::out_of_range`). -/

structure EMUTileKey where
  ovrLevel : Nat
  band : Nat
  x : Nat
  y : Nat
deriving DecidableEq

structure EMUTileValue where
  offset : Nat
  size : Nat
  uncompressedSize : Nat
deriving DecidableEq

abbrev TileIndex := List (EMUTileKey × EMUTileValue)

def lookupTile : TileIndex → EMUTileKey → Option EMUTileValue
  | [], _ => none
  | (k, v) :: rest, key => if k = key then some v else lookupTile rest key

/-- `EMUDataset::setTileOffset` (src/src/emudataset.cpp:278):
`m_tileOffsets.insert(...)`, which keeps the existing mapping if the key is
already present. -/
def setTileOffset (m : TileIndex) (k : EMUTileKey) (v : EMUTileValue) : TileIndex :=
  match lookupTile m k with
  | some _ => m
  | none => m ++ [(k, v)]

/-- `EMUDataset::getTileOffset` (src/src/emudataset.cpp:284):
`return m_tileOffsets[{o, band, x, y}];` — `operator[]` default-inserts
`{0,0,0}` on a miss and returns it; it never throws, so the
`std::out_of_range` handler at the call site in `IReadBlock` is dead code. -/
def getTileOffset (m : TileIndex) (k : EMUTileKey) : TileIndex × EMUTileValue :=
  match lookupTile m k with
  | some v => (m, v)
  | none => (m ++ [(k, ⟨0, 0, 0⟩)], ⟨0, 0, 0⟩)

/-! ### The block engine (src/src/emuband.cpp) -/

inductive Access where
  | update
  | readonly
deriving DecidableEq

structure DState where
  file : List Nat
  index : TileIndex
  access : Access
deriving DecidableEq

/-- Band geometry: raster size, nominal block size, element size in bytes
(`GDALGetDataTypeSize(eDataType) / 8`).  EMU tiles are square
(`nBlockXSize = nBlockYSize = tilesize`) but the two are kept separate to
mirror the code. -/
structure BandGeom where
  rasterX : Nat
  rasterY : Nat
  blockX : Nat
  blockY : Nat
  ts : Nat
deriving DecidableEq

/-- One axis of `GDALRasterBand::GetActualBlockSize`: the valid extent of
block `off` is the nominal size clipped at the raster edge. -/
def nValid (raster block off : Nat) : Nat :=
  if raster < off * block + block then raster - off * block else block

/-- The compaction loop of `IWriteBlock` (src/src/emuband.cpp:184): row-copy
the `nXValid * typeSize` leading bytes of each of the `nYValid` valid rows
out of the caller's nominal-stride buffer. -/
def compactTile (g : BandGeom) (nXV nYV : Nat) (input : List Nat) : List Nat :=
  (List.range nYV).flatMap
    (fun row => (input.drop (row * (g.blockX * g.ts))).take (nXV * g.ts))

/-- `EMURasterBand::IWriteBlock` (src/src/emuband.cpp:156): compute the valid
extent, append the 1-byte discriminant and the compressed (compacted, when
partial) payload, and record the tile under `(0, band, x, y)`. -/
def IWriteBlock (c : Codec) (g : BandGeom) (ds : DState) (band x y : Nat)
    (input : List Nat) : DState :=
  let nXV := nValid g.rasterX g.blockX x
  let nYV := nValid g.rasterY g.blockY y
  let tileOffset := ds.file.length
  let file1 := ds.file ++ [COMPRESSION_ZLIB]
  let uncompressedSize := nXV * nYV * g.ts
  if nXV ≠ g.blockX ∨ nYV ≠ g.blockY then
    let sub := compactTile g nXV nYV input
    let compressed := doCompression c COMPRESSION_ZLIB sub
    { ds with file := file1 ++ compressed,
              index := setTileOffset ds.index ⟨0, band, x, y⟩
                ⟨tileOffset, compressed.length, uncompressedSize⟩ }
  else
    let compressed := doCompression c COMPRESSION_ZLIB input
    { ds with file := file1 ++ compressed,
              index := setTileOffset ds.index ⟨0, band, x, y⟩
                ⟨tileOffset, compressed.length, uncompressedSize⟩ }

inductive BlockErr where
  | unsupported
  | indexMissing
deriving DecidableEq

/-- The expansion loop of `IReadBlock` (src/src/emuband.cpp:133): copy each
valid row of the compacted scratch buffer into the caller's nominal-stride
block buffer. -/
def expandPartial (g : BandGeom) (nXV nYV : Nat) (uncompressed buf : List Nat) :
    List Nat :=
  (List.range nYV).foldl
    (fun dst row =>
      writeSlice dst (row * (g.blockX * g.ts))
        ((uncompressed.drop (row * (nXV * g.ts))).take (nXV * g.ts)))
    buf

/-- `EMURasterBand::IReadBlock` (src/src/emuband.cpp:82).  In update mode it
fails with the not-supported error before touching any state.  Otherwise it
looks the key up with `operator[]` (which default-inserts on a miss — the
`std::out_of_range` handler in the source can never run), reads the
discriminant byte and `size` compressed bytes at `offset`, and decompresses
— via a scratch buffer and row expansion for a partial edge tile, directly
into the caller's buffer otherwise.  `junk` is the unspecified content
`CPLMalloc` hands out for the scratch buffer. -/
def IReadBlock (c : Codec) (g : BandGeom) (ds : DState) (band x y : Nat)
    (buf : List Nat) (junk : Nat) : DState × Except BlockErr (List Nat) :=
  if ds.access = Access.update then
    (ds, Except.error BlockErr.unsupported)
  else
    let lookedUp := getTileOffset ds.index ⟨0, band, x, y⟩
    let val := lookedUp.2
    let ds1 : DState := { ds with index := lookedUp.1 }
    let compression := ds.file.getD val.offset 0
    let nXV := nValid g.rasterX g.blockX x
    let nYV := nValid g.rasterY g.blockY y
    let sub := (ds.file.drop (val.offset + 1)).take val.size
    if nXV ≠ g.blockX ∨ nYV ≠ g.blockY then
      let scratch := List.replicate val.uncompressedSize junk
      let uncompressed := doUncompression c compression sub scratch val.uncompressedSize
      (ds1, Except.ok (expandPartial g nXV nYV uncompressed buf))
    else
      (ds1, Except.ok (doUncompression c compression sub buf val.uncompressedSize))

/-- A block write request of a write session (`band`, block x/y, the caller's
nominal-size buffer). -/
structure WriteOp where
  band : Nat
  x : Nat
  y : Nat
  data : List Nat
deriving DecidableEq

def opKey (op : WriteOp) : EMUTileKey := ⟨0, op.band, op.x, op.y⟩

/-- Run a write session: a sequence of `IWriteBlock` calls. -/
def runWrites (c : Codec) (g : BandGeom) : DState → List WriteOp → DState
  | ds, [] => ds
  | ds, op :: ops => runWrites c g (IWriteBlock c g ds op.band op.x op.y op.data) ops

/-- A write request is valid when its block coordinates are inside the raster
and its buffer has the nominal block size. -/
def validOp (g : BandGeom) (op : WriteOp) : Prop :=
  op.x * g.blockX < g.rasterX ∧ op.y * g.blockY < g.rasterY ∧
    op.data.length = g.blockX * g.blockY * g.ts

instance (g : BandGeom) (op : WriteOp) : Decidable (validOp g op) := by
  unfold validOp
  infer_instance

/-- The compacted payload `IWriteBlock` compresses for a write request. -/
def subBytes (g : BandGeom) (op : WriteOp) : List Nat :=
  compactTile g (nValid g.rasterX g.blockX op.x) (nValid g.rasterY g.blockY op.y) op.data

/-- The bytes a single `IWriteBlock` appends to the file: the discriminant
byte followed by the compressed payload. -/
def tileRecord (c : Codec) (g : BandGeom) (op : WriteOp) : List Nat :=
  COMPRESSION_ZLIB :: c.comp (subBytes g op)

/-- `uncompressedSize` recorded for a write request:
`nXValid * nYValid * typeSize`. -/
def opUSize (g : BandGeom) (op : WriteOp) : Nat :=
  nValid g.rasterX g.blockX op.x * nValid g.rasterY g.blockY op.y * g.ts

/-- The file preamble `Create` emits: `"EMU%04d"` with `EMU_VERSION = 1`,
then the u32 flags word (src/src/emudataset.cpp:603). -/
def emuPreambleBytes (flags : Nat) : List Nat := strBytes "EMU0001" ++ u32le flags

/-- A freshly created write-mode dataset over its preamble. -/
def CreateDS (flags : Nat) : DState := ⟨emuPreambleBytes flags, [], Access.update⟩

/-- The tile of `op` is stored in `ds`: the index maps its key to an entry
whose `offset` points at its record inside the file and whose sizes are the
compressed / compacted sizes of its payload. -/
def TileStored (c : Codec) (g : BandGeom) (ds : DState) (op : WriteOp) : Prop :=
  ∃ off, lookupTile ds.index (opKey op) =
      some ⟨off, (c.comp (subBytes g op)).length, opUSize g op⟩ ∧
    (ds.file.drop off).take (tileRecord c g op).length = tileRecord c g op ∧
    off + (tileRecord c g op).length ≤ ds.file.length

/-- Reading the block of `op` succeeds and delivers, on the tile's valid
sub-extent, exactly the bytes of the buffer that was submitted. -/
def ReadGivesBack (c : Codec) (g : BandGeom) (ds : DState) (op : WriteOp)
    (buf : List Nat) (junk : Nat) : Prop :=
  match IReadBlock c g ds op.band op.x op.y buf junk with
  | (_, Except.ok out) =>
      ∀ row col, row < nValid g.rasterY g.blockY op.y →
        col < nValid g.rasterX g.blockX op.x * g.ts →
        out.getD (row * (g.blockX * g.ts) + col) 0 =
          op.data.getD (row * (g.blockX * g.ts) + col) 0
  | (_, Except.error _) => False

/-! ### GDAL CSL string lists (cpl_string)

The driver stores metadata in GDAL CSL lists of raw `"KEY=VALUE"` strings
and manipulates them only through `CSLSetNameValue` / `CSLFetchNameValue`,
both of which match the key case-insensitively (ASCII) and stop at the
first match; `CSLSetNameValue` replaces the first matching entry or appends
a new `"name=value"` entry.  Entries are embedded as NUL-free byte lists. -/

/-- The scan predicate of `strchr`-style loops: the byte is not `v`. -/
def notByte (v : Nat) (b : Nat) : Bool := b ≠ v

def keyUp (b : Nat) : Nat := if 97 ≤ b ∧ b ≤ 122 then b - 32 else b

/-- ASCII-case-insensitive equality (`EQUAL` / `strcasecmp`). -/
def keyEqCI (a b : List Nat) : Bool := a.map keyUp == b.map keyUp

/-- The key part of a raw CSL entry: the bytes before the first `=` (61). -/
def cslEntryKey (e : List Nat) : List Nat := e.takeWhile (notByte 61)

def cslSetNameValueRaw : List (List Nat) → List Nat → List Nat → List (List Nat)
  | [], name, value => [name ++ [61] ++ value]
  | e :: rest, name, value =>
    if keyEqCI (cslEntryKey e) name then (name ++ [61] ++ value) :: rest
    else e :: cslSetNameValueRaw rest name value

def cslFetchNameValueRaw : List (List Nat) → List Nat → Option (List Nat)
  | [], _ => none
  | e :: rest, name =>
    if keyEqCI (cslEntryKey e) name then some (e.drop ((cslEntryKey e).length + 1))
    else cslFetchNameValueRaw rest name

/-! ### The metadata codec (src/src/emucompress.cpp:133) -/

/-- Modelled from the spec: the `STATISTICS_*` macros used by
`doCompressMetadata` are not defined anywhere in the provided sources (the
header defining them is missing); the spec fixes the reserved key set as
the literal names, which also match the string literals
`EMURasterBand::UpdateMetadataList` stores under. -/
def reservedMetadataKeys : List (List Nat) :=
  [strBytes "STATISTICS_MINIMUM", strBytes "STATISTICS_MAXIMUM",
   strBytes "STATISTICS_MEAN", strBytes "STATISTICS_STDDEV",
   strBytes "CLOUD_OPTIMISED"]

/-- `isSpecialKey` (src/src/emucompress.cpp:105): an entry is special when it
contains `=` and its key is in the reserved set. -/
def isSpecialKey (entry : List Nat) : Bool :=
  let key := entry.takeWhile (notByte 61)
  if key.length = entry.length then false
  else decide (key ∈ reservedMetadataKeys)

/-- `doCompressMetadata` (src/src/emucompress.cpp:133): drop special entries;
if nothing is left report `(0, 0)` and no payload; otherwise concatenate the
survivors NUL-separated with a final double NUL, compress, and report
(uncompressed size, compressed size, payload). -/
def doCompressMetadata (c : Codec) (entries : List (List Nat)) :
    Nat × Nat × List Nat :=
  let kept := entries.filter (fun e => !isSpecialKey e)
  let nInputSize := kept.foldl (fun acc e => acc + (e.length + 1)) 0
  if nInputSize = 0 then (0, 0, [])
  else
    let buf := kept.flatMap (fun e => e ++ [0]) ++ [0]
    let payload := doCompression c COMPRESSION_ZLIB buf
    (nInputSize + 1, payload.length, payload)

/-- The entry-splitting loop of `doUncompressMetadata`: split the buffer at
NUL bytes until a zero-length entry (the final double NUL) is reached.  The
fuel (number of outer-loop iterations) is bounded by the buffer length. -/
def splitNulAux : Nat → List Nat → List (List Nat)
  | 0, _ => []
  | fuel + 1, bs =>
    let e := bs.takeWhile (notByte 0)
    if e.length = 0 then []
    else e :: splitNulAux fuel (bs.drop (e.length + 1))

def splitNulEntries (bs : List Nat) : List (List Nat) := splitNulAux bs.length bs

/-- `doUncompressMetadata` (src/src/emucompress.cpp:190): decompress
`inputSize` bytes into a `nOutputSize` buffer, split on NULs, split each
entry at its first `=` (entries without `=` are skipped), and accumulate
with `CSLSetNameValue`. -/
def doUncompressMetadata (c : Codec) (input : List Nat)
    (inputSize nOutputSize : Nat) : List (List Nat) :=
  (splitNulEntries ((c.decomp (input.take inputSize)).take nOutputSize)).foldl
    (fun acc e =>
      if (cslEntryKey e).length = e.length then acc
      else cslSetNameValueRaw acc (cslEntryKey e)
        (e.drop ((cslEntryKey e).length + 1)))
    []

/-! ### Dataset metadata (src/src/emudataset.cpp:850) -/

inductive CPLErrT where
  | CE_None
  | CE_Failure
deriving DecidableEq

def CLOUD_OPTIMISED_KEY : List Nat := strBytes "CLOUD_OPTIMISED"

/-- `EMUDataset::UpdateMetadataList`: pin `CLOUD_OPTIMISED` to the
construction-time flag. -/
def UpdateMetadataList (cloud : Bool) (lst : List (List Nat)) : List (List Nat) :=
  cslSetNameValueRaw lst CLOUD_OPTIMISED_KEY
    (strBytes (if cloud then "TRUE" else "FALSE"))

/-- `EMUDataset::SetMetadataItem` (src/src/emudataset.cpp:862): refuse to
update `CLOUD_OPTIMISED` (case-insensitive `EQUAL`) but still return
`CE_None`; any other name goes through `CSLSetNameValue`. -/
def SetMetadataItem (lst : List (List Nat)) (name value : List Nat) :
    CPLErrT × List (List Nat) :=
  if keyEqCI name CLOUD_OPTIMISED_KEY then (CPLErrT.CE_None, lst)
  else (CPLErrT.CE_None, cslSetNameValueRaw lst name value)

/-- A sequence of `SetMetadataItem` calls. -/
def runSetMetadataItems (lst : List (List Nat))
    (ops : List (List Nat × List Nat)) : List (List Nat) :=
  ops.foldl (fun acc nv => (SetMetadataItem acc nv.1 nv.2).2) lst

/-! ### The raster attribute table (src/src/emurat.cpp) -/

/-- Modelled from the spec: `MAX_RAT_CHUNK` is used but not defined in the
provided sources; the spec fixes it at 65 536.  (None of the settled claims
depend on its value, only on it being positive.) -/
def MAX_RAT_CHUNK : Nat := 65536

def GFT_Integer : Nat := 0

def GFT_Real : Nat := 1

def GFT_String : Nat := 2

structure RatChunkRec where
  startIdx : Nat
  length : Nat
  offset : Nat
  compressedSize : Nat
deriving DecidableEq

structure RatColRec where
  name : List Nat
  colType : Nat
  chunks : List RatChunkRec
deriving DecidableEq

structure RatRec where
  cols : List RatColRec
  rowCount : Nat
deriving DecidableEq

/-- The state a RAT operates on: the shared dataset file, the column list
and the logical row count. -/
structure RatState where
  file : List Nat
  cols : List RatColRec
  rowCount : Nat
deriving DecidableEq

def dummyCol : RatColRec := ⟨[], 0, []⟩

/-- The chunked write loop shared (textually repeated) by the three
`EMURat::ValuesIO` overloads: split the clamped request into sub-chunks of
at most `MAX_RAT_CHUNK` rows; for each, capture the file offset, append the
discriminant and the compressed encoded slice, and push a chunk record.
`enc` is the per-overload row encoding; the fuel (number of loop
iterations) is bounded by the number of rows. -/
def ratWriteLoop {α : Type} (c : Codec) (enc : List α → List Nat) :
    Nat → List Nat → List RatChunkRec → Nat → List α → List Nat × List RatChunkRec
  | 0, file, chunks, _, _ => (file, chunks)
  | fuel + 1, file, chunks, s, vals =>
    if vals.length = 0 then (file, chunks)
    else
      let t := min vals.length MAX_RAT_CHUNK
      let payload := doCompression c COMPRESSION_ZLIB (enc (vals.take t))
      let rec1 : RatChunkRec := ⟨s, t, file.length, payload.length⟩
      ratWriteLoop c enc fuel (file ++ COMPRESSION_ZLIB :: payload)
        (chunks ++ [rec1]) (s + t) (vals.drop t)

/-- Integer rows are widened to `int64_t` before compression
(src/src/emurat.cpp:487). -/
def encInt64 (vals : List Int) : List Nat := vals.flatMap i64le

/-- Real rows are stored as raw doubles; carried as 8-byte bit patterns. -/
def encF64 (vals : List Nat) : List Nat := vals.flatMap u64le

/-- String rows are stored as concatenated NUL-terminated strings
(src/src/emurat.cpp:653). -/
def encStrs (vals : List (List Nat)) : List Nat := vals.flatMap (fun s => s ++ [0])

/-- `EMURat::ValuesIO(GF_Write, …, int*)` (src/src/emurat.cpp:400) on an
Integer column: validate the column (note the source bound check
`iField > m_cols.size()` is off by one; behaviour at `iField = size` is
out-of-bounds in the source and not meaningful here), clamp the row range
to the logical row count, and run the chunked write loop.  The conversion
branches for Real columns and the String-column error path do not write
Integer chunks and are modelled as leaving the state unchanged. -/
def valuesIOIntWrite (c : Codec) (st : RatState) (iField s n : Nat)
    (vals : List Int) : RatState :=
  if st.cols.length < iField then st
  else
    let col := st.cols.getD iField dummyCol
    if col.colType = GFT_Integer then
      if st.rowCount ≤ s then st
      else
        let len := min n (st.rowCount - s)
        let out := ratWriteLoop c encInt64 len st.file col.chunks s (vals.take len)
        { st with file := out.1, cols := st.cols.set iField { col with chunks := out.2 } }
    else st

/-- `EMURat::ValuesIO(GF_Write, …, double*)` (src/src/emurat.cpp:219) on a
Real column, same shape as the Integer overload. -/
def valuesIORealWrite (c : Codec) (st : RatState) (iField s n : Nat)
    (vals : List Nat) : RatState :=
  if st.cols.length < iField then st
  else
    let col := st.cols.getD iField dummyCol
    if col.colType = GFT_Real then
      if st.rowCount ≤ s then st
      else
        let len := min n (st.rowCount - s)
        let out := ratWriteLoop c encF64 len st.file col.chunks s (vals.take len)
        { st with file := out.1, cols := st.cols.set iField { col with chunks := out.2 } }
    else st

/-- `EMURat::ValuesIO(GF_Write, …, char**)` (src/src/emurat.cpp:595) on a
String column, same shape as the Integer overload. -/
def valuesIOStrWrite (c : Codec) (st : RatState) (iField s n : Nat)
    (vals : List (List Nat)) : RatState :=
  if st.cols.length < iField then st
  else
    let col := st.cols.getD iField dummyCol
    if col.colType = GFT_String then
      if st.rowCount ≤ s then st
      else
        let len := min n (st.rowCount - s)
        let out := ratWriteLoop c encStrs len st.file col.chunks s (vals.take len)
        { st with file := out.1, cols := st.cols.set iField { col with chunks := out.2 } }
    else st

/-- The chunk-location scan of the read paths (src/src/emurat.cpp:524):
linear scan from the front for the first chunk with `startIdx ≤ startRow`;
returns the chunk list from there and the element skip. -/
def findChunkFrom : List RatChunkRec → Nat → Option (List RatChunkRec × Nat)
  | [], _ => none
  | ch :: rest, s =>
    if ch.startIdx ≤ s then some (ch :: rest, s - ch.startIdx)
    else findChunkFrom rest s

/-- The chunk-copy loop of `EMURat::ValuesIO(GF_Read, …, int*)`
(src/src/emurat.cpp:537).  The source allocates
`length * sizeof(int)` = `4 * length` bytes for the scratch buffer but then
reads 8-byte `int64_t` elements out of it, so only the first half of each
chunk's rows come from the decompressed stream; the rest is whatever the
heap holds (`junk`, indexed by byte address). -/
def ratReadIntChunks (c : Codec) (junk : Nat → Nat) (file : List Nat) :
    List RatChunkRec → Nat → Nat → List Int
  | [], _, _ => []
  | ch :: rest, skip, need =>
    if need = 0 then []
    else
      let compression := file.getD ch.offset 0
      let sub := (file.drop (ch.offset + 1)).take ch.compressedSize
      let uncompressedSize := ch.length * 4
      let buf0 := (List.range uncompressedSize).map junk
      let bufR := doUncompression c compression sub buf0 uncompressedSize
      let mem : Nat → Nat := fun addr =>
        if addr < bufR.length then bufR.getD addr 0 else junk addr
      let count := min need ch.length
      let vals := (List.range count).map (fun i =>
        toInt32 (i64dec ((List.range 8).map (fun b => mem (8 * (skip + i) + b)))))
      vals ++ ratReadIntChunks c junk file rest 0 (need - count)

/-- `EMURat::ValuesIO(GF_Read, …, int*)` (src/src/emurat.cpp:400) on an
Integer column: clamp, locate the first chunk with `startIdx ≤ startRow`;
when none is found the caller's buffer is left untouched; otherwise copy
from successive chunks and zero-pad the tail of the requested range. -/
def valuesIOIntRead (c : Codec) (junk : Nat → Nat) (st : RatState)
    (iField s n : Nat) (buf : List Int) : List Int :=
  if st.cols.length < iField then buf
  else
    let col := st.cols.getD iField dummyCol
    if col.colType = GFT_Integer then
      if st.rowCount ≤ s then buf
      else
        let len := min n (st.rowCount - s)
        match findChunkFrom col.chunks s with
        | none => buf
        | some (cs, skip) =>
          let vals := ratReadIntChunks c junk st.file cs skip len
          (vals ++ List.replicate (len - vals.length) 0) ++ buf.drop len
    else buf

/-- Insertion sort by `startIdx`.  `EMURat::WriteIndex` sorts with
`std::sort` and the comparator `a.startIdx < b.startIdx`; that contract is
"a permutation of the input, sorted by the key", which is what the theorems
below use and what insertion sort realises. -/
def insertChunk (ch : RatChunkRec) : List RatChunkRec → List RatChunkRec
  | [] => [ch]
  | c :: rest =>
    if ch.startIdx ≤ c.startIdx then ch :: c :: rest else c :: insertChunk ch rest

def sortChunks : List RatChunkRec → List RatChunkRec
  | [] => []
  | c :: rest => insertChunk c (sortChunks rest)

/-- The sort order `WriteIndex` uses. -/
def chunkLE (a b : RatChunkRec) : Prop := a.startIdx ≤ b.startIdx

/-- A column as it comes back after `WriteIndex` / `ReadIndex`: same name
and type, chunks sorted. -/
def sortCol (col : RatColRec) : RatColRec := ⟨col.name, col.colType, sortChunks col.chunks⟩

def ratChunkBytes (ch : RatChunkRec) : List Nat :=
  u64le ch.startIdx ++ u64le ch.length ++ u64le ch.offset ++ u64le ch.compressedSize

def ratColBytes (col : RatColRec) : List Nat :=
  u64le col.colType ++ col.name ++ [0] ++ u64le col.chunks.length ++
    (sortChunks col.chunks).flatMap ratChunkBytes

/-- `EMURat::WriteIndex` (src/src/emurat.cpp:868): column count, row count,
then per column the type, the NUL-terminated name, the chunk count and the
chunk records, the chunks sorted by `startIdx` immediately before writing. -/
def WriteIndexBytes (r : RatRec) : List Nat :=
  u64le r.cols.length ++ u64le r.rowCount ++ r.cols.flatMap ratColBytes

/-! ### Byte-level parsers (the `Open` / `ReadIndex` read paths) -/

def pByte (bs : List Nat) : Option (Nat × List Nat) :=
  match bs with
  | [] => none
  | b :: rest => some (b, rest)

def pLE (k : Nat) (bs : List Nat) : Option (Nat × List Nat) :=
  if k ≤ bs.length then some (leDec (bs.take k), bs.drop k) else none

def pSkip (k : Nat) (bs : List Nat) : Option (List Nat) :=
  if k ≤ bs.length then some (bs.drop k) else none

/-- Read a NUL-terminated name byte by byte (src/src/emurat.cpp:838). -/
def pName (bs : List Nat) : Option (List Nat × List Nat) :=
  let e := bs.takeWhile (notByte 0)
  if e.length = bs.length then none else some (e, bs.drop (e.length + 1))

/-- Run a parser a counted number of times (`for i in 0..count`). -/
def parseCount {α : Type} (p : List Nat → Option (α × List Nat)) :
    Nat → List Nat → Option (List α × List Nat)
  | 0, bs => some ([], bs)
  | k + 1, bs =>
    match p bs with
    | none => none
    | some (a, bs1) =>
      match parseCount p k bs1 with
      | none => none
      | some (l, bs2) => some (a :: l, bs2)

/-- Run a skipping parser a counted number of times. -/
def skipCount (p : List Nat → Option (List Nat)) :
    Nat → List Nat → Option (List Nat)
  | 0, bs => some bs
  | k + 1, bs =>
    match p bs with
    | none => none
    | some rest => skipCount p k rest

def pRatChunk (bs : List Nat) : Option (RatChunkRec × List Nat) :=
  match pLE 8 bs with
  | none => none
  | some (startIdx, bs) =>
    match pLE 8 bs with
    | none => none
    | some (length, bs) =>
      match pLE 8 bs with
      | none => none
      | some (offset, bs) =>
        match pLE 8 bs with
        | none => none
        | some (compressedSize, bs) => some (⟨startIdx, length, offset, compressedSize⟩, bs)

def pRatCol (bs : List Nat) : Option (RatColRec × List Nat) :=
  match pLE 8 bs with
  | none => none
  | some (colType, bs) =>
    match pName bs with
    | none => none
    | some (name, bs) =>
      match pLE 8 bs with
      | none => none
      | some (nChunks, bs) =>
        match parseCount pRatChunk nChunks bs with
        | none => none
        | some (chunks, bs) => some (⟨name, colType, chunks⟩, bs)

/-- `EMURat::ReadIndex` (src/src/emurat.cpp:822): column count, row count,
then the columns with their chunk lists, in file order. -/
def ReadIndexParse (bs : List Nat) : Option (RatRec × List Nat) :=
  match pLE 8 bs with
  | none => none
  | some (nCols, bs) =>
    match pLE 8 bs with
    | none => none
    | some (rowCount, bs) =>
      match parseCount pRatCol nCols bs with
      | none => none
      | some (cols, bs) => some (⟨cols, rowCount⟩, bs)

/-! ### The footer: `EMUDataset::Close` / `EMUDataset::Open`
(src/src/emudataset.cpp:92 and :315) -/

structure OverviewRec where
  xSize : Nat
  ySize : Nat
  blockSize : Nat
deriving DecidableEq

/-- Everything `Close` writes for one band.  The four statistics and the
geotransform only cross the code as opaque IEEE-754 doubles, so they are
carried as 8-byte bit patterns (`Nat` below 2^64). -/
structure BandRec where
  noDataSet : Bool
  noData : Int
  statMin : Nat
  statMax : Nat
  statMean : Nat
  statStdDev : Nat
  overviews : List OverviewRec
  rat : RatRec
  metadata : List (List Nat)
deriving DecidableEq

/-- The close-time content of the dataset outside the tile index. -/
structure CloseInfo where
  dataType : Nat
  rasterX : Nat
  rasterY : Nat
  tileSize : Nat
  bands : List BandRec
  geo : List Nat
  wkt : List Nat
  dsMeta : List (List Nat)
deriving DecidableEq

/-- `VSIFWriteL("HDR", 4, 1, …)` writes the string plus its terminator. -/
def hdrMagic : List Nat := [72, 68, 82, 0]

def overviewBytes (o : OverviewRec) : List Nat :=
  u64le o.xSize ++ u64le o.ySize ++ u16le o.blockSize

/-- The band/dataset metadata block: the uncompressed size, then (when it is
positive) the compressed size and the payload. -/
def metadataBytes (c : Codec) (entries : List (List Nat)) : List Nat :=
  u64le (doCompressMetadata c entries).1 ++
    (if (doCompressMetadata c entries).1 = 0 then []
     else u64le (doCompressMetadata c entries).2.1 ++ (doCompressMetadata c entries).2.2)

/-- The four statistics doubles, written back to back. -/
def statsBytes (b : BandRec) : List Nat :=
  u64le b.statMin ++ u64le b.statMax ++ u64le b.statMean ++ u64le b.statStdDev

def bandBytes (c : Codec) (b : BandRec) : List Nat :=
  (if b.noDataSet then 1 else 0) :: i64le b.noData ++
  statsBytes b ++
  u32le b.overviews.length ++ b.overviews.flatMap overviewBytes ++
  WriteIndexBytes b.rat ++ metadataBytes c b.metadata

def tileEntryBytes (kv : EMUTileKey × EMUTileValue) : List Nat :=
  u64le kv.2.offset ++ u64le kv.2.size ++ u64le kv.2.uncompressedSize ++
  u64le kv.1.ovrLevel ++ u64le kv.1.band ++ u64le kv.1.x ++ u64le kv.1.y

/-- The footer fields between the `"HDR\0"` magic and the tile count. -/
def footerCore (c : Codec) (info : CloseInfo) : List Nat :=
  u64le info.dataType ++ u64le info.bands.length ++
  u64le info.rasterX ++ u64le info.rasterY ++ u32le info.tileSize ++
  info.bands.flatMap (bandBytes c) ++
  info.geo.flatMap u64le ++
  u64le (info.wkt.length + 1) ++ info.wkt ++ [0] ++
  metadataBytes c info.dsMeta

/-- `EMUDataset::Close` in write mode: append the footer — magic, header
fields, per-band records, geotransform, WKT, dataset metadata, tile count,
tile entries — and finally the 8-byte header offset captured before the
footer was begun. -/
def closeFile (c : Codec) (ds : DState) (info : CloseInfo) : List Nat :=
  ds.file ++ hdrMagic ++ footerCore c info ++
  u64le ds.index.length ++ ds.index.flatMap tileEntryBytes ++
  u64le ds.file.length

/-- Skip one overview record (`oxsize`, `oysize`, `oblocksize`). -/
def pOverviewSkip (bs : List Nat) : Option (List Nat) :=
  match pLE 8 bs with
  | none => none
  | some (_, bs) =>
    match pLE 8 bs with
    | none => none
    | some (_, bs) =>
      match pLE 2 bs with
      | none => none
      | some (_, bs) => some bs

/-- Skip a metadata block: read the first size; when it is positive read the
second size and that many payload bytes (src/src/emudataset.cpp:446). -/
def pMetaSkip (bs : List Nat) : Option (List Nat) :=
  match pLE 8 bs with
  | none => none
  | some (outSize, bs) =>
    if outSize = 0 then some bs
    else
      match pLE 8 bs with
      | none => none
      | some (inSize, bs) => pSkip inSize bs

/-- Consume one band section of the footer exactly as `Open` reads it:
no-data flag and value, four statistics doubles, overview count and
records, the RAT index, the band metadata. -/
def pBandSkip (bs : List Nat) : Option (List Nat) :=
  match pByte bs with
  | none => none
  | some (_, bs) =>
    match pSkip 8 bs with
    | none => none
    | some bs =>
      match pSkip 32 bs with
      | none => none
      | some bs =>
        match pLE 4 bs with
        | none => none
        | some (nOverviews, bs) =>
          match skipCount pOverviewSkip nOverviews bs with
          | none => none
          | some bs =>
            match ReadIndexParse bs with
            | none => none
            | some (_, bs) => pMetaSkip bs

def pTileEntry (bs : List Nat) : Option ((EMUTileKey × EMUTileValue) × List Nat) :=
  match pLE 8 bs with
  | none => none
  | some (offset, bs) =>
    match pLE 8 bs with
    | none => none
    | some (size, bs) =>
      match pLE 8 bs with
      | none => none
      | some (uncompressedSize, bs) =>
        match pLE 8 bs with
        | none => none
        | some (ovrLevel, bs) =>
          match pLE 8 bs with
          | none => none
          | some (band, bs) =>
            match pLE 8 bs with
            | none => none
            | some (x, bs) =>
              match pLE 8 bs with
              | none => none
              | some (y, bs) =>
                some ((⟨ovrLevel, band, x, y⟩, ⟨offset, size, uncompressedSize⟩), bs)

/-- What `Open` reconstructs (the parts the claims are about). -/
structure OpenedDS where
  cloudOptimised : Bool
  dataType : Nat
  rasterX : Nat
  rasterY : Nat
  tileSize : Nat
  tiles : TileIndex
deriving DecidableEq

/-- `EMUDataset::Open` (src/src/emudataset.cpp:315): check the `"EMU"`
magic, read the flags word at offset 7, read the trailing 8-byte footer
offset, verify `"HDR\0"` there, then read the header fields, walk every
band section, the geotransform, the WKT and the dataset metadata, and load
the tile index. -/
def openDataset (bs : List Nat) : Option OpenedDS :=
  if bs.take 3 = strBytes "EMU" then
    if 8 ≤ bs.length then
      let headerOffset := leDec (bs.drop (bs.length - 8))
      let nFlags := leDec ((bs.drop 7).take 4)
      let f := bs.drop headerOffset
      if f.take 4 = hdrMagic then
        match pLE 8 (f.drop 4) with
        | none => none
        | some (dataType, r) =>
          match pLE 8 r with
          | none => none
          | some (bandCount, r) =>
            match pLE 8 r with
            | none => none
            | some (xsize, r) =>
              match pLE 8 r with
              | none => none
              | some (ysize, r) =>
                match pLE 4 r with
                | none => none
                | some (tileSize, r) =>
                  match skipCount pBandSkip bandCount r with
                  | none => none
                  | some r =>
                    match pSkip 48 r with
                    | none => none
                    | some r =>
                      match pLE 8 r with
                      | none => none
                      | some (wktSize, r) =>
                        match pSkip wktSize r with
                        | none => none
                        | some r =>
                          match pMetaSkip r with
                          | none => none
                          | some r =>
                            match pLE 8 r with
                            | none => none
                            | some (nTiles, r) =>
                              match parseCount pTileEntry nTiles r with
                              | none => none
                              | some (tiles, _) =>
                                some ⟨nFlags % 2 = 1, dataType, xsize, ysize,
                                  tileSize, tiles⟩
      else none
    else none
  else none

/-! ### Session and well-formedness helpers used by the theorems -/

/-- Operations a write session performs on the tile index: `setTileOffset`
inserts (from `IWriteBlock`); `getTileOffset` is the `operator[]` access. -/
inductive IndexOp where
  | set (k : EMUTileKey) (v : EMUTileValue)
  | get (k : EMUTileKey)

def runIndexOps : TileIndex → List IndexOp → TileIndex
  | m, [] => m
  | m, IndexOp.set k v :: ops => runIndexOps (setTileOffset m k v) ops
  | m, IndexOp.get k :: ops => runIndexOps (getTileOffset m k).1 ops

/-- One RAT write call of a session on column 0: the three `ValuesIO` write
overloads. -/
inductive RatWriteEv where
  | intW (s n : Nat) (vals : List Int)
  | realW (s n : Nat) (vals : List Nat)
  | strW (s n : Nat) (vals : List (List Nat))

def applyRatEv (c : Codec) (st : RatState) : RatWriteEv → RatState
  | RatWriteEv.intW s n vals => valuesIOIntWrite c st 0 s n vals
  | RatWriteEv.realW s n vals => valuesIORealWrite c st 0 s n vals
  | RatWriteEv.strW s n vals => valuesIOStrWrite c st 0 s n vals

def runRatSession (c : Codec) : RatState → List RatWriteEv → RatState
  | st, [] => st
  | st, ev :: evs => runRatSession c (applyRatEv c st ev) evs

/-- The row range a write event addresses. -/
def evRange : RatWriteEv → Nat × Nat
  | RatWriteEv.intW s n _ => (s, n)
  | RatWriteEv.realW s n _ => (s, n)
  | RatWriteEv.strW s n _ => (s, n)

def rangesDisjoint (a b : Nat × Nat) : Prop := a.1 + a.2 ≤ b.1 ∨ b.1 + b.2 ≤ a.1

/-- The `[startIdx, startIdx + length)` ranges of two chunks do not overlap. -/
def chunksDisjoint (a b : RatChunkRec) : Prop :=
  a.startIdx + a.length ≤ b.startIdx ∨ b.startIdx + b.length ≤ a.startIdx

/-- Machine-width bounds re-imposed on the embedding (all these quantities
are 64-bit in the source). -/
def chunkWF (ch : RatChunkRec) : Prop :=
  ch.startIdx < 2 ^ 64 ∧ ch.length < 2 ^ 64 ∧ ch.offset < 2 ^ 64 ∧
    ch.compressedSize < 2 ^ 64

def colWF (col : RatColRec) : Prop :=
  col.colType < 2 ^ 64 ∧ (0 ∉ col.name) ∧ col.chunks.length < 2 ^ 64 ∧
    ∀ ch ∈ col.chunks, chunkWF ch

def ratWF (r : RatRec) : Prop :=
  r.cols.length < 2 ^ 64 ∧ r.rowCount < 2 ^ 64 ∧ ∀ col ∈ r.cols, colWF col

/-- The sizes the metadata block stores fit in u64. -/
def metaWF (c : Codec) (entries : List (List Nat)) : Prop :=
  (doCompressMetadata c entries).1 < 2 ^ 64 ∧
    (doCompressMetadata c entries).2.1 < 2 ^ 64

def bandWF (c : Codec) (b : BandRec) : Prop :=
  b.overviews.length < 2 ^ 32 ∧ ratWF b.rat ∧ metaWF c b.metadata

def closeWF (c : Codec) (info : CloseInfo) : Prop :=
  info.dataType < 2 ^ 64 ∧ info.bands.length < 2 ^ 64 ∧
  info.rasterX < 2 ^ 64 ∧ info.rasterY < 2 ^ 64 ∧ info.tileSize < 2 ^ 32 ∧
  info.geo.length = 6 ∧ info.wkt.length + 1 < 2 ^ 64 ∧
  (∀ b ∈ info.bands, bandWF c b) ∧ metaWF c info.dsMeta

def tileEntryWF (kv : EMUTileKey × EMUTileValue) : Prop :=
  kv.2.offset < 2 ^ 64 ∧ kv.2.size < 2 ^ 64 ∧ kv.2.uncompressedSize < 2 ^ 64 ∧
  kv.1.ovrLevel < 2 ^ 64 ∧ kv.1.band < 2 ^ 64 ∧ kv.1.x < 2 ^ 64 ∧ kv.1.y < 2 ^ 64

def tilesWF (m : TileIndex) : Prop := m.length < 2 ^ 64 ∧ ∀ kv ∈ m, tileEntryWF kv

/-- The file of a dataset about to be closed: it starts with the `"EMU"`
magic written at creation, is at least preamble-sized, and its length fits
the trailing u64 offset field. -/
def dsFileWF (ds : DState) : Prop :=
  ds.file.take 3 = strBytes "EMU" ∧ 11 ≤ ds.file.length ∧ ds.file.length < 2 ^ 64

instance (a b : RatChunkRec) : Decidable (chunksDisjoint a b) := by
  unfold chunksDisjoint
  infer_instance

instance (ch : RatChunkRec) : Decidable (chunkWF ch) := by
  unfold chunkWF
  infer_instance

instance (col : RatColRec) : Decidable (colWF col) := by
  unfold colWF
  infer_instance

instance (r : RatRec) : Decidable (ratWF r) := by
  unfold ratWF
  infer_instance

instance (c : Codec) (entries : List (List Nat)) : Decidable (metaWF c entries) := by
  unfold metaWF
  infer_instance

instance (c : Codec) (b : BandRec) : Decidable (bandWF c b) := by
  unfold bandWF
  infer_instance

instance (c : Codec) (info : CloseInfo) : Decidable (closeWF c info) := by
  unfold closeWF
  infer_instance

instance (kv : EMUTileKey × EMUTileValue) : Decidable (tileEntryWF kv) := by
  unfold tileEntryWF
  infer_instance

instance (m : TileIndex) : Decidable (tilesWF m) := by
  unfold tilesWF
  infer_instance

instance (ds : DState) : Decidable (dsFileWF ds) := by
  unfold dsFileWF
  infer_instance

instance (a b : Nat × Nat) : Decidable (rangesDisjoint a b) := by
  unfold rangesDisjoint
  infer_instance

/-- A chunk's row range lies inside a write request's row range. -/
def chunkInRange (ch : RatChunkRec) (r : Nat × Nat) : Prop :=
  r.1 ≤ ch.startIdx ∧ ch.startIdx + ch.length ≤ r.1 + r.2

instance (ch : RatChunkRec) (r : Nat × Nat) : Decidable (chunkInRange ch r) := by
  unfold chunkInRange
  infer_instance

/-- The column list as it comes back from `WriteIndex` followed by
`ReadIndex` (Close and reopen); empty when the parse fails. -/
def reopenRatCols (r : RatRec) : List RatColRec :=
  match ReadIndexParse (WriteIndexBytes r) with
  | some p => p.1.cols
  | none => []

/-! ### Concrete instances used by witnesses and counterexamples -/

/-- A 3×3 raster with 2×2 blocks and 1-byte pixels: tile (0,0) is full,
tiles in column/row 1 are partial. -/
def wGeom : BandGeom := ⟨3, 3, 2, 2, 1⟩

/-- A session writing the full tile (0,0) and the partial tile (1,0) of
band 1. -/
def wOps : List WriteOp := [⟨1, 0, 0, [1, 2, 3, 4]⟩, ⟨1, 1, 0, [5, 6, 7, 8]⟩]

/-- Close-time content for the `wGeom` dataset: one-band-free footer with a
trivial geotransform, empty WKT and no extra dataset metadata. -/
def wInfo : CloseInfo := ⟨1, 3, 3, 2, [], [0, 0, 0, 0, 0, 0], [], []⟩

/-- A freshly opened (read-only) dataset whose tile index is empty: the
preamble is on disk and no tile was ever recorded. -/
def c2State : DState := ⟨emuPreambleBytes 0, [], Access.readonly⟩

/-- An Integer RAT column with two rows, before any write. -/
def c3State : RatState := ⟨[], [⟨strBytes "col", GFT_Integer, []⟩], 2⟩

/-- The state after `write(col 0, rows [0,2), values [5, 7])`. -/
def c3Written : RatState := valuesIOIntWrite idCodec c3State 0 0 2 [5, 7]

/-- The state after a single `write(col 0, rows [1,2), value [7])`: no
chunk starts at or before row 0. -/
def c3NotFound : RatState := valuesIOIntWrite idCodec c3State 0 1 1 [7]

/-- An Integer RAT column with one row. -/
def c5State : RatState := ⟨[], [⟨strBytes "col", GFT_Integer, []⟩], 1⟩

/-- A session writing row 0 twice (the API accepts this). -/
def c5Sess : RatState :=
  runRatSession idCodec c5State [RatWriteEv.intW 0 1 [1], RatWriteEv.intW 0 1 [2]]

/-! ## Lemmas: byte encodings and parsers -/

theorem length_leBytes (k n : Nat) : (leBytes k n).length = k := by
  induction k generalizing n with
  | zero => rfl
  | succ k ih => simp [leBytes, ih]

theorem leDec_leBytes (k n : Nat) : leDec (leBytes k n) = n % 256 ^ k := by
  induction k generalizing n with
  | zero => simp [leBytes, leDec, Nat.mod_one]
  | succ k ih =>
    simp only [leBytes, leDec, ih]
    rw [pow_succ']
    exact Nat.mod_mul.symm

theorem leDec_leBytes_of_lt {k n : Nat} (h : n < 256 ^ k) :
    leDec (leBytes k n) = n := by
  rw [leDec_leBytes, Nat.mod_eq_of_lt h]

theorem pLE_bytes (k n : Nat) (rest : List Nat) :
    pLE k (leBytes k n ++ rest) = some (n % 256 ^ k, rest) := by
  have hlen := length_leBytes k n
  have h1 := List.take_left (leBytes k n) rest
  have h2 := List.drop_left (leBytes k n) rest
  rw [hlen] at h1 h2
  have h3 : k ≤ (leBytes k n ++ rest).length := by
    rw [List.length_append, hlen]; omega
  unfold pLE
  rw [if_pos h3, h1, h2, leDec_leBytes]

theorem pLE_bytes_of_lt {k n : Nat} (h : n < 256 ^ k) (rest : List Nat) :
    pLE k (leBytes k n ++ rest) = some (n, rest) := by
  rw [pLE_bytes, Nat.mod_eq_of_lt h]

theorem pSkip_append (xs rest : List Nat) :
    pSkip xs.length (xs ++ rest) = some rest := by
  simp [pSkip, List.drop_left]

theorem pSkip_append_of_length {k : Nat} {xs : List Nat} (h : xs.length = k)
    (rest : List Nat) : pSkip k (xs ++ rest) = some rest := by
  subst h; exact pSkip_append xs rest

theorem takeWhile_append_stop {p : Nat → Bool} {a : List Nat} {b : Nat}
    (rest : List Nat) (ha : ∀ x ∈ a, p x = true) (hb : p b = false) :
    (a ++ b :: rest).takeWhile p = a := by
  induction a with
  | nil => simp [List.takeWhile, hb]
  | cons x xs ih =>
    have hx : p x = true := ha x (by simp)
    simp only [List.cons_append, List.takeWhile_cons, hx]
    simp only [if_true]
    rw [ih (fun y hy => ha y (by simp [hy]))]

theorem notByte_true_iff {v b : Nat} : notByte v b = true ↔ b ≠ v := by
  simp [notByte]

theorem notByte_self (v : Nat) : notByte v v = false := by
  simp [notByte]

theorem pName_spec {name : List Nat} (h : 0 ∉ name) (rest : List Nat) :
    pName (name ++ 0 :: rest) = some (name, rest) := by
  have htw : (name ++ 0 :: rest).takeWhile (notByte 0) = name := by
    refine takeWhile_append_stop rest (fun x hx => ?_) (notByte_self 0)
    exact notByte_true_iff.mpr (fun hcontra => h (hcontra ▸ hx))
  have hdrop : (name ++ 0 :: rest).drop (name.length + 1) = rest := by
    have := @List.drop_append _ name (0 :: rest) 1
    simpa using this
  have hlen : ¬ name.length = (name ++ 0 :: rest).length := by
    simp only [List.length_append, List.length_cons]
    omega
  simp only [pName, htw, hlen, if_false, hdrop, if_neg hlen]

theorem parseCount_flatMap {α β : Type} (p : List Nat → Option (β × List Nat))
    (ser : α → List Nat) (t : α → β) (P : α → Prop)
    (hp : ∀ a rest, P a → p (ser a ++ rest) = some (t a, rest)) :
    ∀ (l : List α) (rest : List Nat), (∀ a ∈ l, P a) →
      parseCount p l.length (l.flatMap ser ++ rest) = some (l.map t, rest) := by
  intro l
  induction l with
  | nil => intro rest _; simp [parseCount]
  | cons a as ih =>
    intro rest h
    have hsplit : (a :: as).flatMap ser ++ rest = ser a ++ (as.flatMap ser ++ rest) := by
      simp
    have ha := hp a (as.flatMap ser ++ rest) (h a (by simp))
    have hrec := ih rest (fun x hx => h x (by simp [hx]))
    simp only [List.length_cons, parseCount, hsplit, ha, hrec, List.map_cons]

theorem skipCount_flatMap {α : Type} (q : List Nat → Option (List Nat))
    (ser : α → List Nat) (P : α → Prop)
    (hq : ∀ a rest, P a → q (ser a ++ rest) = some rest) :
    ∀ (l : List α) (rest : List Nat), (∀ a ∈ l, P a) →
      skipCount q l.length (l.flatMap ser ++ rest) = some rest := by
  intro l
  induction l with
  | nil => intro rest _; simp [skipCount]
  | cons a as ih =>
    intro rest h
    have hsplit : (a :: as).flatMap ser ++ rest = ser a ++ (as.flatMap ser ++ rest) := by
      simp
    have ha := hq a (as.flatMap ser ++ rest) (h a (by simp))
    have hrec := ih rest (fun x hx => h x (by simp [hx]))
    simp only [List.length_cons, skipCount, hsplit, ha, hrec]

/-! ## Lemmas: list access helpers -/

theorem getD_drop (l : List Nat) (n m d : Nat) :
    (l.drop n).getD m d = l.getD (n + m) d := by
  simp [List.getD_eq_getElem?_getD, List.getElem?_drop]

theorem getD_take {l : List Nat} {k m : Nat} (h : m < k) (d : Nat) :
    (l.take k).getD m d = l.getD m d := by
  simp [List.getD_eq_getElem?_getD, List.getElem?_take, h]

theorem getD_append_left {l l2 : List Nat} {m : Nat} (h : m < l.length) (d : Nat) :
    (l ++ l2).getD m d = l.getD m d := by
  simp [List.getD_eq_getElem?_getD, List.getElem?_append, h]

theorem getD_append_right2 {l l2 : List Nat} {m : Nat} (h : l.length ≤ m) (d : Nat) :
    (l ++ l2).getD m d = l2.getD (m - l.length) d := by
  simp [List.getD_eq_getElem?_getD, List.getElem?_append_right h]

theorem length_writeSlice {dst src : List Nat} {pos : Nat}
    (h : pos + src.length ≤ dst.length) :
    (writeSlice dst pos src).length = dst.length := by
  simp only [writeSlice, List.length_append, List.length_take, List.length_drop]
  omega

/-- Byte `i` of a `memcpy` result: inside `[pos, pos + |src|)` it comes from
`src`, outside it is the old buffer content (provided the copy fits). -/
theorem getD_writeSlice {dst src : List Nat} {pos : Nat}
    (h : pos + src.length ≤ dst.length) (i d : Nat) :
    (writeSlice dst pos src).getD i d =
      if pos ≤ i ∧ i < pos + src.length then src.getD (i - pos) d
      else dst.getD i d := by
  have hpos : pos ≤ dst.length := by omega
  have htk : (dst.take pos).length = pos := by
    rw [List.length_take]; omega
  have htks : (dst.take pos ++ src).length = pos + src.length := by
    rw [List.length_append, htk]
  unfold writeSlice
  by_cases h1 : i < pos
  · rw [if_neg (by omega)]
    rw [getD_append_left (by omega)]
    rw [getD_append_left (by omega)]
    exact getD_take h1 d
  · by_cases h2 : i < pos + src.length
    · rw [if_pos ⟨by omega, h2⟩]
      rw [getD_append_left (by omega)]
      rw [getD_append_right2 (by omega)]
      rw [htk]
    · rw [if_neg (by omega)]
      rw [getD_append_right2 (by omega)]
      rw [getD_drop, htks]
      congr 1
      omega

/-! ## Lemmas: u64/u32/u16 field parsing -/

theorem pU64_spec {n : Nat} (h : n < 2 ^ 64) (rest : List Nat) :
    pLE 8 (u64le n ++ rest) = some (n, rest) := by
  have h2 : (256 : Nat) ^ 8 = 2 ^ 64 := by norm_num
  exact pLE_bytes_of_lt (h2 ▸ h) rest

theorem pU32_spec {n : Nat} (h : n < 2 ^ 32) (rest : List Nat) :
    pLE 4 (u32le n ++ rest) = some (n, rest) := by
  have h2 : (256 : Nat) ^ 4 = 2 ^ 32 := by norm_num
  exact pLE_bytes_of_lt (h2 ▸ h) rest

theorem pU16_spec {n : Nat} (h : n < 2 ^ 16) (rest : List Nat) :
    pLE 2 (u16le n ++ rest) = some (n, rest) := by
  have h2 : (256 : Nat) ^ 2 = 2 ^ 16 := by norm_num
  exact pLE_bytes_of_lt (h2 ▸ h) rest

theorem length_u64le (n : Nat) : (u64le n).length = 8 := length_leBytes 8 n

theorem length_i64le (v : Int) : (i64le v).length = 8 := length_leBytes 8 _

/-! ## Lemmas: the chunk sort (`std::sort` contract) -/

theorem insertChunk_perm (ch : RatChunkRec) (l : List RatChunkRec) :
    (insertChunk ch l).Perm (ch :: l) := by
  induction l with
  | nil => simp [insertChunk]
  | cons c rest ih =>
    by_cases hle : ch.startIdx ≤ c.startIdx
    · simp [insertChunk, hle]
    · simp only [insertChunk, if_neg hle]
      exact (ih.cons c).trans (List.Perm.swap ch c rest)

theorem sortChunks_perm (l : List RatChunkRec) : (sortChunks l).Perm l := by
  induction l with
  | nil => simp [sortChunks]
  | cons c rest ih =>
    exact (insertChunk_perm c (sortChunks rest)).trans (ih.cons c)

theorem length_sortChunks (l : List RatChunkRec) :
    (sortChunks l).length = l.length := (sortChunks_perm l).length_eq

theorem mem_sortChunks {l : List RatChunkRec} {ch : RatChunkRec} :
    ch ∈ sortChunks l ↔ ch ∈ l := (sortChunks_perm l).mem_iff

theorem insertChunk_sorted {ch : RatChunkRec} {l : List RatChunkRec}
    (h : List.Pairwise chunkLE l) :
    List.Pairwise chunkLE (insertChunk ch l) := by
  induction l with
  | nil => simp [insertChunk, List.Pairwise]
  | cons c rest ih =>
    rcases h with _ | ⟨hc, hrest⟩
    by_cases hle : ch.startIdx ≤ c.startIdx
    · simp only [insertChunk, if_pos hle]
      refine List.Pairwise.cons ?_ (List.Pairwise.cons hc hrest)
      intro b hb
      rcases List.mem_cons.mp hb with hb | hb
      · exact hb ▸ hle
      · exact Nat.le_trans hle (hc b hb)
    · simp only [insertChunk, if_neg hle]
      refine List.Pairwise.cons ?_ (ih hrest)
      intro b hb
      have hb2 : b ∈ ch :: rest := (insertChunk_perm ch rest).mem_iff.mp hb
      rcases List.mem_cons.mp hb2 with hb3 | hb3
      · subst hb3
        exact Nat.le_of_lt (Nat.lt_of_not_le hle)
      · exact hc b hb3

theorem sortChunks_sorted (l : List RatChunkRec) :
    List.Pairwise chunkLE (sortChunks l) := by
  induction l with
  | nil => simp [sortChunks, List.Pairwise]
  | cons c rest ih => exact insertChunk_sorted ih

/-! ## Lemmas: footer section round trips -/

theorem pOverviewSkip_spec (o : OverviewRec) (rest : List Nat) :
    pOverviewSkip (overviewBytes o ++ rest) = some rest := by
  simp only [overviewBytes, List.append_assoc]
  simp only [pOverviewSkip, u64le, u16le, pLE_bytes]

theorem doCompressMetadata_payloadLength (c : Codec) (entries : List (List Nat)) :
    (doCompressMetadata c entries).2.2.length = (doCompressMetadata c entries).2.1 := by
  unfold doCompressMetadata
  by_cases h : (List.filter (fun e => !isSpecialKey e) entries).foldl
      (fun acc e => acc + (e.length + 1)) 0 = 0
  · simp [h]
  · simp [h]

theorem pMetaSkip_spec {c : Codec} {m : List (List Nat)} (h : metaWF c m)
    (rest : List Nat) : pMetaSkip (metadataBytes c m ++ rest) = some rest := by
  obtain ⟨h1, h2⟩ := h
  have hlen := doCompressMetadata_payloadLength c m
  by_cases h0 : (doCompressMetadata c m).1 = 0
  · have hmb : metadataBytes c m = u64le 0 := by
      unfold metadataBytes
      rw [h0]
      simp
    rw [hmb]
    have hz := pU64_spec (show (0:Nat) < 2 ^ 64 by norm_num) rest
    simp [pMetaSkip, hz]
  · have hmb : metadataBytes c m =
        u64le (doCompressMetadata c m).1 ++
          (u64le (doCompressMetadata c m).2.1 ++ (doCompressMetadata c m).2.2) := by
      unfold metadataBytes
      rw [if_neg h0]
    rw [hmb]
    have hsk := pSkip_append_of_length hlen rest
    simp only [List.append_assoc, pMetaSkip, pU64_spec h1, if_neg h0, pU64_spec h2, hsk]

theorem pRatChunk_spec {ch : RatChunkRec} (h : chunkWF ch) (rest : List Nat) :
    pRatChunk (ratChunkBytes ch ++ rest) = some (ch, rest) := by
  obtain ⟨h1, h2, h3, h4⟩ := h
  simp only [ratChunkBytes, List.append_assoc]
  simp only [pRatChunk, pU64_spec h1, pU64_spec h2, pU64_spec h3, pU64_spec h4]

theorem pRatCol_spec {col : RatColRec} (h : colWF col) (rest : List Nat) :
    pRatCol (ratColBytes col ++ rest) = some (sortCol col, rest) := by
  obtain ⟨h1, h2, h3, h4⟩ := h
  have hcnt : ∀ ch ∈ sortChunks col.chunks, chunkWF ch :=
    fun ch hch => h4 ch (mem_sortChunks.mp hch)
  have hparse := parseCount_flatMap pRatChunk ratChunkBytes id chunkWF
    (fun a r ha => pRatChunk_spec ha r) (sortChunks col.chunks) rest hcnt
  rw [length_sortChunks, List.map_id] at hparse
  have hname : ∀ r : List Nat, pName (col.name ++ 0 :: r) = some (col.name, r) :=
    fun r => pName_spec h2 r
  simp only [ratColBytes, List.append_assoc, List.singleton_append, List.cons_append]
  simp only [pRatCol, pU64_spec h1, hname, List.nil_append, pU64_spec h3, hparse, sortCol]

theorem ReadIndexParse_spec {r : RatRec} (h : ratWF r) (rest : List Nat) :
    ReadIndexParse (WriteIndexBytes r ++ rest) = some (⟨r.cols.map sortCol, r.rowCount⟩, rest) := by
  obtain ⟨h1, h2, h3⟩ := h
  have hparse := parseCount_flatMap pRatCol ratColBytes sortCol colWF
    (fun a rr ha => pRatCol_spec ha rr) r.cols rest h3
  simp only [WriteIndexBytes, List.append_assoc]
  simp only [ReadIndexParse, pU64_spec h1, pU64_spec h2, hparse]

theorem length_statsBytes (b : BandRec) : (statsBytes b).length = 32 := by
  simp [statsBytes, length_u64le]

theorem pBandSkip_spec {c : Codec} {b : BandRec} (h : bandWF c b) (rest : List Nat) :
    pBandSkip (bandBytes c b ++ rest) = some rest := by
  obtain ⟨h1, h2, h3⟩ := h
  have hA : ∀ r : List Nat, pSkip 8 (i64le b.noData ++ r) = some r :=
    fun r => pSkip_append_of_length (length_i64le b.noData) r
  have hB : ∀ r : List Nat, pSkip 32 (statsBytes b ++ r) = some r :=
    fun r => pSkip_append_of_length (length_statsBytes b) r
  have hD : ∀ r : List Nat,
      skipCount pOverviewSkip b.overviews.length (b.overviews.flatMap overviewBytes ++ r) = some r :=
    fun r => skipCount_flatMap pOverviewSkip overviewBytes (fun _ => True)
      (fun a rr _ => pOverviewSkip_spec a rr) b.overviews r (fun _ _ => trivial)
  have hE : ∀ r : List Nat, ReadIndexParse (WriteIndexBytes b.rat ++ r) =
      some (⟨b.rat.cols.map sortCol, b.rat.rowCount⟩, r) :=
    fun r => ReadIndexParse_spec h2 r
  have hF : ∀ r : List Nat, pMetaSkip (metadataBytes c b.metadata ++ r) = some r :=
    fun r => pMetaSkip_spec h3 r
  simp only [bandBytes, List.cons_append, List.append_assoc]
  simp only [pBandSkip, pByte, hA, hB, pU32_spec h1, hD, hE, hF]

theorem pTileEntry_spec {kv : EMUTileKey × EMUTileValue} (h : tileEntryWF kv)
    (rest : List Nat) : pTileEntry (tileEntryBytes kv ++ rest) = some (kv, rest) := by
  obtain ⟨h1, h2, h3, h4, h5, h6, h7⟩ := h
  simp only [tileEntryBytes, List.append_assoc]
  simp only [pTileEntry, pU64_spec h1, pU64_spec h2, pU64_spec h3, pU64_spec h4,
    pU64_spec h5, pU64_spec h6, pU64_spec h7]

theorem leDec_u64le {n : Nat} (h : n < 2 ^ 64) : leDec (u64le n) = n := by
  have h2 : (256 : Nat) ^ 8 = 2 ^ 64 := by norm_num
  exact leDec_leBytes_of_lt (h2 ▸ h)

theorem length_flatMap_u64le (l : List Nat) : (l.flatMap u64le).length = 8 * l.length := by
  induction l with
  | nil => simp
  | cons a as ih =>
    simp only [List.flatMap_cons, List.length_append, length_u64le, ih, List.length_cons]
    ring

/-- The header/footer round trip: `Open` applied to the bytes `Close`
produced recovers the raster geometry, the cloud-optimised flag bit stored
at byte 7 of the preamble, and the tile index, entry for entry. -/
theorem openDataset_closeFile {c : Codec} {ds : DState} {info : CloseInfo}
    (hfile : dsFileWF ds) (hinfo : closeWF c info) (htiles : tilesWF ds.index) :
    openDataset (closeFile c ds info) =
      some ⟨decide (leDec ((ds.file.drop 7).take 4) % 2 = 1), info.dataType,
        info.rasterX, info.rasterY, info.tileSize, ds.index⟩ := by
  obtain ⟨hmagic, hlen11, hlen64⟩ := hfile
  obtain ⟨hdt, hbc, hrx, hry, hts, hgeo, hwkt, hbands, hdsm⟩ := hinfo
  obtain ⟨hcnt, hentries⟩ := htiles
  have hsplitF : closeFile c ds info = ds.file ++
      (hdrMagic ++
        (u64le info.dataType ++ (u64le info.bands.length ++
          (u64le info.rasterX ++ (u64le info.rasterY ++ (u32le info.tileSize ++
            (info.bands.flatMap (bandBytes c) ++ (info.geo.flatMap u64le ++
              (u64le (info.wkt.length + 1) ++ (info.wkt ++ (0 ::
                (metadataBytes c info.dsMeta ++ (u64le ds.index.length ++
                  (ds.index.flatMap tileEntryBytes ++
                    u64le ds.file.length)))))))))))))) := by
    simp only [closeFile, footerCore, List.append_assoc, List.singleton_append,
      List.cons_append, List.nil_append]
  have hlenF : 8 ≤ (closeFile c ds info).length := by
    rw [hsplitF, List.length_append]
    omega
  have htake3 : (closeFile c ds info).take 3 = strBytes "EMU" := by
    rw [hsplitF, List.take_append_of_le_length (by omega), hmagic]
  have hflags : ((closeFile c ds info).drop 7).take 4 = (ds.file.drop 7).take 4 := by
    rw [hsplitF, List.drop_append_of_le_length (by omega),
      List.take_append_of_le_length (by rw [List.length_drop]; omega)]
  have hlast : (closeFile c ds info).drop ((closeFile c ds info).length - 8) =
      u64le ds.file.length := by
    have hB : closeFile c ds info =
        (ds.file ++ hdrMagic ++ footerCore c info ++ u64le ds.index.length ++
          ds.index.flatMap tileEntryBytes) ++ u64le ds.file.length := by
      simp only [closeFile, List.append_assoc]
    rw [hB]
    have hl : ((ds.file ++ hdrMagic ++ footerCore c info ++ u64le ds.index.length ++
        ds.index.flatMap tileEntryBytes) ++ u64le ds.file.length).length - 8 =
        (ds.file ++ hdrMagic ++ footerCore c info ++ u64le ds.index.length ++
          ds.index.flatMap tileEntryBytes).length := by
      rw [List.length_append, length_u64le]
      omega
    rw [hl, List.drop_left]
  have hdropHO : (closeFile c ds info).drop ds.file.length =
      hdrMagic ++
        (u64le info.dataType ++ (u64le info.bands.length ++
          (u64le info.rasterX ++ (u64le info.rasterY ++ (u32le info.tileSize ++
            (info.bands.flatMap (bandBytes c) ++ (info.geo.flatMap u64le ++
              (u64le (info.wkt.length + 1) ++ (info.wkt ++ (0 ::
                (metadataBytes c info.dsMeta ++ (u64le ds.index.length ++
                  (ds.index.flatMap tileEntryBytes ++
                    u64le ds.file.length))))))))))))) := by
    rw [hsplitF]
    exact List.drop_left _ _
  have hP6 : ∀ r : List Nat, skipCount pBandSkip info.bands.length
      (info.bands.flatMap (bandBytes c) ++ r) = some r :=
    fun r => skipCount_flatMap pBandSkip (bandBytes c) (bandWF c)
      (fun a rr ha => pBandSkip_spec ha rr) info.bands r hbands
  have hgeoLen : (info.geo.flatMap u64le).length = 48 := by
    rw [length_flatMap_u64le, hgeo]
  have hP7 : ∀ r : List Nat, pSkip 48 (info.geo.flatMap u64le ++ r) = some r :=
    fun r => pSkip_append_of_length hgeoLen r
  have hP9 : ∀ r : List Nat, pSkip (info.wkt.length + 1) (info.wkt ++ 0 :: r) = some r := by
    intro r
    have h := pSkip_append_of_length
      (show (info.wkt ++ [0]).length = info.wkt.length + 1 by simp) r
    simpa [List.append_assoc] using h
  have hP10 : ∀ r : List Nat, pMetaSkip (metadataBytes c info.dsMeta ++ r) = some r :=
    fun r => pMetaSkip_spec hdsm r
  have hP12 : ∀ r : List Nat, parseCount pTileEntry ds.index.length
      (ds.index.flatMap tileEntryBytes ++ r) = some (ds.index, r) := by
    intro r
    have h := parseCount_flatMap pTileEntry tileEntryBytes id tileEntryWF
      (fun a rr ha => pTileEntry_spec ha rr) ds.index r hentries
    simpa using h
  have hmagic4 : ∀ r : List Nat, (hdrMagic ++ r).take 4 = hdrMagic :=
    fun r => List.take_left hdrMagic r
  have hmagicDrop : ∀ r : List Nat, (hdrMagic ++ r).drop 4 = r :=
    fun r => List.drop_left hdrMagic r
  unfold openDataset
  rw [if_pos htake3, if_pos hlenF]
  simp only [hlast, leDec_u64le hlen64, hdropHO, hflags, hmagic4, hmagicDrop,
    pU64_spec hdt, pU64_spec hbc, pU64_spec hrx, pU64_spec hry, pU32_spec hts,
    hP6, hP7, pU64_spec hwkt, hP9, hP10, pU64_spec hcnt, hP12, if_pos rfl, if_true]

/-! ## Lemmas: uniform row segments (compaction / expansion algebra) -/

theorem flatMap_segments_length (L : Nat) :
    ∀ (n : Nat) (f : Nat → List Nat), (∀ i, i < n → (f i).length = L) →
      ((List.range n).flatMap f).length = n * L := by
  intro n
  induction n with
  | zero => intro f _; simp
  | succ n ih =>
    intro f hf
    rw [List.range_succ_eq_map, List.flatMap_cons, List.flatMap_map]
    rw [List.length_append, hf 0 (by omega)]
    rw [ih (fun i => f (Nat.succ i)) (fun i hi => hf (Nat.succ i) (by omega))]
    rw [Nat.succ_mul]
    omega

theorem flatMap_segments_getD (L d : Nat) :
    ∀ (n : Nat) (f : Nat → List Nat), (∀ i, i < n → (f i).length = L) →
      ∀ r c, r < n → c < L →
        ((List.range n).flatMap f).getD (r * L + c) d = (f r).getD c d := by
  intro n
  induction n with
  | zero => intro f _ r c hr _; omega
  | succ n ih =>
    intro f hf r c hr hc
    rw [List.range_succ_eq_map, List.flatMap_cons, List.flatMap_map]
    cases r with
    | zero =>
      rw [Nat.zero_mul, Nat.zero_add]
      exact getD_append_left (by rw [hf 0 (by omega)]; exact hc) d
    | succ r =>
      have hlen0 : (f 0).length = L := hf 0 (by omega)
      rw [getD_append_right2 (by rw [hlen0, Nat.succ_mul]; omega) d]
      have hidx : Nat.succ r * L + c - (f 0).length = r * L + c := by
        rw [hlen0, Nat.succ_mul]; omega
      rw [hidx]
      exact ih (fun i => f (Nat.succ i)) (fun i hi => hf (Nat.succ i) (by omega))
        r c (by omega) hc

theorem flatMap_take_drop (L : Nat) :
    ∀ (n : Nat) (l : List Nat), l.length = n * L →
      (List.range n).flatMap (fun i => (l.drop (i * L)).take L) = l := by
  intro n
  induction n with
  | zero =>
    intro l h
    rw [Nat.zero_mul] at h
    rw [List.length_eq_zero] at h
    simp [h]
  | succ n ih =>
    intro l h
    rw [List.range_succ_eq_map, List.flatMap_cons, List.flatMap_map]
    rw [Nat.zero_mul, List.drop_zero]
    have hdd : ∀ i : Nat, l.drop (Nat.succ i * L) = (l.drop L).drop (i * L) := by
      intro i
      rw [List.drop_drop]
      congr 1
      rw [Nat.succ_mul]
      omega
    have hlen : (l.drop L).length = n * L := by
      rw [List.length_drop, h, Nat.succ_mul]
      omega
    have htail : (List.range n).flatMap (fun i => (l.drop (Nat.succ i * L)).take L) =
        l.drop L := by
      have hcongr : (List.range n).flatMap (fun i => (l.drop (Nat.succ i * L)).take L) =
          (List.range n).flatMap (fun i => ((l.drop L).drop (i * L)).take L) := by
        simp only [hdd]
      rw [hcongr]
      exact ih (l.drop L) hlen
    rw [htail, List.take_append_drop]

/-! ## Lemmas: compaction and expansion -/

theorem nValid_le (raster block off : Nat) : nValid raster block off ≤ block := by
  unfold nValid
  split <;> omega

theorem nValid_eq_block {raster block off : Nat} (h : off * block + block ≤ raster) :
    nValid raster block off = block := by
  unfold nValid
  rw [if_neg (by omega)]

theorem length_compactTile {g : BandGeom} {nXV nYV : Nat} {input : List Nat}
    (h : ∀ row, row < nYV → row * (g.blockX * g.ts) + nXV * g.ts ≤ input.length) :
    (compactTile g nXV nYV input).length = nYV * (nXV * g.ts) := by
  unfold compactTile
  refine flatMap_segments_length (nXV * g.ts) nYV _ ?_
  intro i hi
  rw [List.length_take, List.length_drop]
  have := h i hi
  omega

theorem compactTile_getD {g : BandGeom} {nXV nYV : Nat} {input : List Nat}
    {row col : Nat} (hrow : row < nYV) (hcol : col < nXV * g.ts)
    (hall : ∀ r2, r2 < nYV → r2 * (g.blockX * g.ts) + nXV * g.ts ≤ input.length)
    (d : Nat) :
    (compactTile g nXV nYV input).getD (row * (nXV * g.ts) + col) d =
      input.getD (row * (g.blockX * g.ts) + col) d := by
  unfold compactTile
  rw [flatMap_segments_getD (nXV * g.ts) d nYV _ ?_ row col hrow hcol]
  · rw [getD_take hcol, getD_drop]
  · intro i hi
    rw [List.length_take, List.length_drop]
    have := hall i hi
    omega

theorem compactTile_full {g : BandGeom} {input : List Nat}
    (hlen : input.length = g.blockY * (g.blockX * g.ts)) :
    compactTile g g.blockX g.blockY input = input := by
  unfold compactTile
  exact flatMap_take_drop (g.blockX * g.ts) g.blockY input hlen

theorem expandPartial_aux {g : BandGeom} {nXV nYV : Nat} {uncompressed buf : List Nat}
    (hulen : uncompressed.length = nYV * (nXV * g.ts))
    (hblen : buf.length = g.blockY * (g.blockX * g.ts))
    (hx : nXV ≤ g.blockX) (hy : nYV ≤ g.blockY) :
    ∀ k, k ≤ nYV →
      ((List.range k).foldl
          (fun dst row =>
            writeSlice dst (row * (g.blockX * g.ts))
              ((uncompressed.drop (row * (nXV * g.ts))).take (nXV * g.ts)))
          buf).length = buf.length ∧
      (∀ r c d, r < k → c < nXV * g.ts →
        ((List.range k).foldl
            (fun dst row =>
              writeSlice dst (row * (g.blockX * g.ts))
                ((uncompressed.drop (row * (nXV * g.ts))).take (nXV * g.ts)))
            buf).getD (r * (g.blockX * g.ts) + c) d =
          uncompressed.getD (r * (nXV * g.ts) + c) d) := by
  have hxts : nXV * g.ts ≤ g.blockX * g.ts := Nat.mul_le_mul_right g.ts hx
  intro k
  induction k with
  | zero => intro _; exact ⟨rfl, fun r c d hr _ => by omega⟩
  | succ k ih =>
    intro hk
    obtain ⟨ihlen, ihget⟩ := ih (by omega)
    have hseg : ((uncompressed.drop (k * (nXV * g.ts))).take (nXV * g.ts)).length =
        nXV * g.ts := by
      rw [List.length_take, List.length_drop, hulen]
      have : (k + 1) * (nXV * g.ts) ≤ nYV * (nXV * g.ts) :=
        Nat.mul_le_mul_right (nXV * g.ts) (by omega)
      rw [Nat.succ_mul] at this
      omega
    have hwin : k * (g.blockX * g.ts) + nXV * g.ts ≤ buf.length := by
      rw [hblen]
      have h1 : (k + 1) * (g.blockX * g.ts) ≤ g.blockY * (g.blockX * g.ts) :=
        Nat.mul_le_mul_right (g.blockX * g.ts) (by omega)
      rw [Nat.succ_mul] at h1
      omega
    have hfit : k * (g.blockX * g.ts) +
        ((uncompressed.drop (k * (nXV * g.ts))).take (nXV * g.ts)).length ≤
        ((List.range k).foldl
          (fun dst row =>
            writeSlice dst (row * (g.blockX * g.ts))
              ((uncompressed.drop (row * (nXV * g.ts))).take (nXV * g.ts)))
          buf).length := by
      rw [ihlen, hseg]
      exact hwin
    rw [List.range_succ, List.foldl_append, List.foldl_cons, List.foldl_nil]
    constructor
    · rw [length_writeSlice hfit, ihlen]
    · intro r c d hr hc
      rw [getD_writeSlice hfit]
      by_cases hrk : r = k
      · subst hrk
        rw [if_pos ⟨by omega, by rw [hseg]; omega⟩]
        have hsub : r * (g.blockX * g.ts) + c - r * (g.blockX * g.ts) = c := by omega
        rw [hsub, getD_take hc, getD_drop]
      · have hrlt : r < k := by omega
        rw [if_neg ?_]
        · exact ihget r c d hrlt hc
        · rw [hseg]
          rintro ⟨hge, hlt⟩
          have hub : r * (g.blockX * g.ts) + c < (r + 1) * (g.blockX * g.ts) := by
            rw [Nat.succ_mul]
            omega
          have hmono : (r + 1) * (g.blockX * g.ts) ≤ k * (g.blockX * g.ts) :=
            Nat.mul_le_mul_right (g.blockX * g.ts) (by omega)
          omega

theorem expandPartial_getD {g : BandGeom} {nXV nYV : Nat} {uncompressed buf : List Nat}
    (hulen : uncompressed.length = nYV * (nXV * g.ts))
    (hblen : buf.length = g.blockY * (g.blockX * g.ts))
    (hx : nXV ≤ g.blockX) (hy : nYV ≤ g.blockY)
    {r c : Nat} (hr : r < nYV) (hc : c < nXV * g.ts) (d : Nat) :
    (expandPartial g nXV nYV uncompressed buf).getD (r * (g.blockX * g.ts) + c) d =
      uncompressed.getD (r * (nXV * g.ts) + c) d :=
  (expandPartial_aux hulen hblen hx hy nYV (Nat.le_refl nYV)).2 r c d hr hc

/-! ## Lemmas: the tile index -/

theorem lookupTile_append_of_some {m : TileIndex} {k : EMUTileKey} {v : EMUTileValue}
    (h : lookupTile m k = some v) (m2 : TileIndex) :
    lookupTile (m ++ m2) k = some v := by
  induction m with
  | nil => simp [lookupTile] at h
  | cons e rest ih =>
    obtain ⟨k1, v1⟩ := e
    by_cases hk : k1 = k
    · simp only [lookupTile, if_pos hk] at h ⊢
      exact h
    · simp only [lookupTile, if_neg hk] at h ⊢
      exact ih h

theorem lookupTile_append_fresh {m : TileIndex} {k : EMUTileKey} {v : EMUTileValue}
    (h : lookupTile m k = none) :
    lookupTile (m ++ [(k, v)]) k = some v := by
  induction m with
  | nil => simp [lookupTile]
  | cons e rest ih =>
    obtain ⟨k1, v1⟩ := e
    by_cases hk : k1 = k
    · simp only [lookupTile, if_pos hk] at h
      exact Option.noConfusion h
    · simp only [lookupTile, if_neg hk] at h ⊢
      exact ih h

theorem lookupTile_append_single_ne {m : TileIndex} {k k2 : EMUTileKey}
    {v : EMUTileValue} (h : lookupTile m k2 = none) (hne : k ≠ k2) :
    lookupTile (m ++ [(k, v)]) k2 = none := by
  induction m with
  | nil => simp [lookupTile, hne]
  | cons e rest ih =>
    obtain ⟨k1, v1⟩ := e
    by_cases hk : k1 = k2
    · simp only [lookupTile, if_pos hk] at h
      exact Option.noConfusion h
    · simp only [lookupTile, if_neg hk] at h ⊢
      exact ih h

theorem setTileOffset_of_none {m : TileIndex} {k : EMUTileKey} {v : EMUTileValue}
    (h : lookupTile m k = none) : setTileOffset m k v = m ++ [(k, v)] := by
  unfold setTileOffset
  rw [h]

theorem setTileOffset_lookup_preserve {m : TileIndex} {k k2 : EMUTileKey}
    {v v2 : EMUTileValue} (h : lookupTile m k2 = some v2) :
    lookupTile (setTileOffset m k v) k2 = some v2 := by
  unfold setTileOffset
  cases hlk : lookupTile m k with
  | some _ => exact h
  | none => exact lookupTile_append_of_some h _

theorem setTileOffset_lookup_none {m : TileIndex} {k k2 : EMUTileKey}
    {v : EMUTileValue} (h : lookupTile m k2 = none) (hne : k ≠ k2) :
    lookupTile (setTileOffset m k v) k2 = none := by
  unfold setTileOffset
  cases hlk : lookupTile m k with
  | some _ => exact h
  | none => exact lookupTile_append_single_ne h hne

/-! ## Lemmas: the block write path -/

theorem slice_append {f g2 : List Nat} {off n : Nat} (h : off + n ≤ f.length) :
    ((f ++ g2).drop off).take n = (f.drop off).take n := by
  rw [List.drop_append_of_le_length (by omega)]
  rw [List.take_append_of_le_length (by rw [List.length_drop]; omega)]

/-- Both branches of `IWriteBlock` append the same record and index entry:
the partial branch by construction, the full branch because compacting a
full tile is the identity. -/
theorem IWriteBlock_eq {c : Codec} {g : BandGeom} {ds : DState} {band x y : Nat}
    {input : List Nat} (hlen : input.length = g.blockX * g.blockY * g.ts) :
    IWriteBlock c g ds band x y input =
      { file := ds.file ++ tileRecord c g ⟨band, x, y, input⟩,
        index := setTileOffset ds.index (opKey ⟨band, x, y, input⟩)
          ⟨ds.file.length, (c.comp (subBytes g ⟨band, x, y, input⟩)).length,
            opUSize g ⟨band, x, y, input⟩⟩,
        access := ds.access } := by
  have hfull : nValid g.rasterX g.blockX x = g.blockX →
      nValid g.rasterY g.blockY y = g.blockY →
      compactTile g (nValid g.rasterX g.blockX x) (nValid g.rasterY g.blockY y) input
        = input := by
    intro h1 h2
    rw [h1, h2]
    refine compactTile_full ?_
    rw [hlen]
    ring
  unfold IWriteBlock
  by_cases hif : nValid g.rasterX g.blockX x ≠ g.blockX ∨
      nValid g.rasterY g.blockY y ≠ g.blockY
  · rw [if_pos hif]
    simp only [tileRecord, subBytes, opKey, opUSize, doCompression,
      COMPRESSION_ZLIB, COMPRESSION_NONE]
    simp [List.append_assoc]
  · rw [if_neg hif]
    push_neg at hif
    obtain ⟨h1, h2⟩ := hif
    have hc := hfull h1 h2
    simp only [tileRecord, subBytes, opKey, opUSize, doCompression,
      COMPRESSION_ZLIB, COMPRESSION_NONE, hc]
    simp [List.append_assoc]

theorem IWriteBlock_file_append (c : Codec) (g : BandGeom) (ds : DState)
    (band x y : Nat) (input : List Nat) :
    ∃ suf : List Nat, (IWriteBlock c g ds band x y input).file = ds.file ++ suf := by
  unfold IWriteBlock
  by_cases hif : nValid g.rasterX g.blockX x ≠ g.blockX ∨
      nValid g.rasterY g.blockY y ≠ g.blockY
  · rw [if_pos hif]
    refine ⟨COMPRESSION_ZLIB :: doCompression c COMPRESSION_ZLIB
      (compactTile g (nValid g.rasterX g.blockX x) (nValid g.rasterY g.blockY y) input), ?_⟩
    simp [List.append_assoc]
  · rw [if_neg hif]
    refine ⟨COMPRESSION_ZLIB :: doCompression c COMPRESSION_ZLIB input, ?_⟩
    simp [List.append_assoc]

theorem IWriteBlock_index_set (c : Codec) (g : BandGeom) (ds : DState)
    (band x y : Nat) (input : List Nat) :
    ∃ v : EMUTileValue, (IWriteBlock c g ds band x y input).index =
      setTileOffset ds.index ⟨0, band, x, y⟩ v := by
  unfold IWriteBlock
  by_cases hif : nValid g.rasterX g.blockX x ≠ g.blockX ∨
      nValid g.rasterY g.blockY y ≠ g.blockY
  · rw [if_pos hif]
    exact ⟨_, rfl⟩
  · rw [if_neg hif]
    exact ⟨_, rfl⟩

theorem IWriteBlock_access (c : Codec) (g : BandGeom) (ds : DState)
    (band x y : Nat) (input : List Nat) :
    (IWriteBlock c g ds band x y input).access = ds.access := by
  unfold IWriteBlock
  by_cases hif : nValid g.rasterX g.blockX x ≠ g.blockX ∨
      nValid g.rasterY g.blockY y ≠ g.blockY
  · rw [if_pos hif]
  · rw [if_neg hif]

theorem TileStored_write_preserve {c : Codec} {g : BandGeom} {ds : DState}
    {op : WriteOp} (h : TileStored c g ds op) (band x y : Nat) (input : List Nat) :
    TileStored c g (IWriteBlock c g ds band x y input) op := by
  obtain ⟨off, hlk, hslice, hbound⟩ := h
  obtain ⟨suf, hfile⟩ := IWriteBlock_file_append c g ds band x y input
  obtain ⟨v, hidx⟩ := IWriteBlock_index_set c g ds band x y input
  refine ⟨off, ?_, ?_, ?_⟩
  · rw [hidx]
    exact setTileOffset_lookup_preserve hlk
  · rw [hfile]
    rw [slice_append hbound]
    exact hslice
  · rw [hfile, List.length_append]
    omega

theorem TileStored_run_preserve {c : Codec} {g : BandGeom} :
    ∀ (ops : List WriteOp) (ds : DState) (op : WriteOp),
      TileStored c g ds op → TileStored c g (runWrites c g ds ops) op := by
  intro ops
  induction ops with
  | nil => intro ds op h; exact h
  | cons op0 rest ih =>
    intro ds op h
    exact ih _ op (TileStored_write_preserve h op0.band op0.x op0.y op0.data)

theorem TileStored_new {c : Codec} {g : BandGeom} {ds : DState} {op : WriteOp}
    (hfresh : lookupTile ds.index (opKey op) = none) (hval : validOp g op) :
    TileStored c g (IWriteBlock c g ds op.band op.x op.y op.data) op := by
  obtain ⟨hx, hy, hlen⟩ := hval
  have heq := @IWriteBlock_eq c g ds op.band op.x op.y op.data hlen
  have hop : (⟨op.band, op.x, op.y, op.data⟩ : WriteOp) = op := rfl
  rw [hop] at heq
  rw [heq]
  refine ⟨ds.file.length, ?_, ?_, ?_⟩
  · rw [setTileOffset_of_none hfresh]
    exact lookupTile_append_fresh hfresh
  · rw [List.drop_left]
    exact List.take_length _
  · rw [List.length_append]

theorem lookup_after_write_none {c : Codec} {g : BandGeom} {ds : DState}
    {k2 : EMUTileKey} {band x y : Nat} {input : List Nat}
    (h : lookupTile ds.index k2 = none) (hne : (⟨0, band, x, y⟩ : EMUTileKey) ≠ k2) :
    lookupTile (IWriteBlock c g ds band x y input).index k2 = none := by
  obtain ⟨v, hidx⟩ := IWriteBlock_index_set c g ds band x y input
  rw [hidx]
  exact setTileOffset_lookup_none h hne

/-- After a write session in which every request is valid and no key is
written twice (nor already present), every submitted tile is stored. -/
theorem runWrites_stores {c : Codec} {g : BandGeom} :
    ∀ (ops : List WriteOp) (ds : DState),
      (∀ op ∈ ops, validOp g op) →
      (∀ op ∈ ops, lookupTile ds.index (opKey op) = none) →
      List.Pairwise (fun a b => opKey a ≠ opKey b) ops →
      ∀ op ∈ ops, TileStored c g (runWrites c g ds ops) op := by
  intro ops
  induction ops with
  | nil => intro ds _ _ _ op hop; cases hop
  | cons op0 rest ih =>
    intro ds hval hfresh hdist op hop
    rcases List.mem_cons.mp hop with hop0 | hoprest
    · subst hop0
      have hstored := @TileStored_new c g ds op
        (hfresh op (by simp)) (hval op (by simp))
      exact TileStored_run_preserve rest _ op hstored
    · rcases hdist with _ | ⟨hne0, hdrest⟩
      refine ih (IWriteBlock c g ds op0.band op0.x op0.y op0.data)
        (fun o ho => hval o (by simp [ho]))
        (fun o ho => ?_) hdrest op hoprest
      exact lookup_after_write_none (hfresh o (by simp [ho])) (hne0 o ho)

theorem runWrites_access (c : Codec) (g : BandGeom) :
    ∀ (ops : List WriteOp) (ds : DState), (runWrites c g ds ops).access = ds.access := by
  intro ops
  induction ops with
  | nil => intro ds; rfl
  | cons op0 rest ih =>
    intro ds
    rw [runWrites, ih, IWriteBlock_access]

theorem runWrites_file_prefix (c : Codec) (g : BandGeom) :
    ∀ (ops : List WriteOp) (ds : DState),
      ∃ suf : List Nat, (runWrites c g ds ops).file = ds.file ++ suf := by
  intro ops
  induction ops with
  | nil => intro ds; exact ⟨[], by simp [runWrites]⟩
  | cons op0 rest ih =>
    intro ds
    obtain ⟨s1, h1⟩ := IWriteBlock_file_append c g ds op0.band op0.x op0.y op0.data
    obtain ⟨s2, h2⟩ := ih (IWriteBlock c g ds op0.band op0.x op0.y op0.data)
    exact ⟨s1 ++ s2, by rw [runWrites, h2, h1, List.append_assoc]⟩

/-! ## Lemmas: the block read path -/

theorem writeSlice_zero_full {dst src : List Nat} (h : src.length = dst.length) :
    writeSlice dst 0 src = src := by
  unfold writeSlice
  rw [List.take_zero, Nat.zero_add, h, List.drop_length]
  simp

/-- Reading back a stored tile in read-only mode delivers, on the valid
sub-extent, exactly the submitted bytes. -/
theorem IReadBlock_of_stored {c : Codec} {g : BandGeom} {ds : DState} {op : WriteOp}
    {buf : List Nat} (junk : Nat)
    (hacc : ds.access = Access.readonly)
    (hst : TileStored c g ds op) (hval : validOp g op)
    (hbuf : buf.length = g.blockX * g.blockY * g.ts) :
    ReadGivesBack c g ds op buf junk := by
  obtain ⟨off, hlk, hslice, hbound⟩ := hst
  obtain ⟨hx, hy, hlen⟩ := hval
  have hxle : nValid g.rasterX g.blockX op.x ≤ g.blockX := nValid_le _ _ _
  have hyle : nValid g.rasterY g.blockY op.y ≤ g.blockY := nValid_le _ _ _
  have hlenY : op.data.length = g.blockY * (g.blockX * g.ts) := by rw [hlen]; ring
  have hbufY : buf.length = g.blockY * (g.blockX * g.ts) := by rw [hbuf]; ring
  have hall : ∀ r2, r2 < nValid g.rasterY g.blockY op.y →
      r2 * (g.blockX * g.ts) + nValid g.rasterX g.blockX op.x * g.ts ≤
        op.data.length := by
    intro r2 hr2
    have h1 : nValid g.rasterX g.blockX op.x * g.ts ≤ g.blockX * g.ts :=
      Nat.mul_le_mul_right g.ts hxle
    have h2 : (r2 + 1) * (g.blockX * g.ts) ≤ g.blockY * (g.blockX * g.ts) :=
      Nat.mul_le_mul_right (g.blockX * g.ts) (by omega)
    rw [Nat.succ_mul] at h2
    rw [hlenY]
    omega
  have hsubLen : (subBytes g op).length =
      nValid g.rasterY g.blockY op.y * (nValid g.rasterX g.blockX op.x * g.ts) :=
    length_compactTile hall
  have husize : opUSize g op = (subBytes g op).length := by
    rw [hsubLen]
    unfold opUSize
    ring
  have hreclen : (tileRecord c g op).length = 1 + (c.comp (subBytes g op)).length := by
    simp only [tileRecord, List.length_cons]
    omega
  have hcompByte : ds.file.getD off 0 = COMPRESSION_ZLIB := by
    have h0 : ds.file.getD off 0 = (ds.file.drop off).getD 0 0 := by
      rw [getD_drop, Nat.add_zero]
    rw [h0, ← getD_take (show 0 < (tileRecord c g op).length by rw [hreclen]; omega) 0,
      hslice]
    rfl
  have hsub : (ds.file.drop (off + 1)).take (c.comp (subBytes g op)).length =
      c.comp (subBytes g op) := by
    have h1 : ((ds.file.drop off).take (tileRecord c g op).length).drop 1 =
        (tileRecord c g op).drop 1 := by rw [hslice]
    rw [hreclen, List.drop_take] at h1
    rw [List.drop_drop] at h1
    have h2 : (tileRecord c g op).drop 1 = c.comp (subBytes g op) := rfl
    have h3 : 1 + (c.comp (subBytes g op)).length - 1 =
        (c.comp (subBytes g op)).length := by omega
    rw [h3, h2] at h1
    exact h1
  have hlkm : lookupTile ds.index (⟨0, op.band, op.x, op.y⟩ : EMUTileKey) =
      some ⟨off, (c.comp (subBytes g op)).length, opUSize g op⟩ := hlk
  have hget : getTileOffset ds.index ⟨0, op.band, op.x, op.y⟩ =
      (ds.index, ⟨off, (c.comp (subBytes g op)).length, opUSize g op⟩) := by
    unfold getTileOffset
    rw [hlkm]
  unfold ReadGivesBack IReadBlock
  rw [hacc]
  rw [if_neg (by decide)]
  simp only [hget, hcompByte, hsub]
  by_cases hpart : nValid g.rasterX g.blockX op.x ≠ g.blockX ∨
      nValid g.rasterY g.blockY op.y ≠ g.blockY
  · rw [if_pos hpart]
    have hscratch : (List.replicate (opUSize g op) junk).length = opUSize g op :=
      List.length_replicate _ _
    have huncomp : doUncompression c COMPRESSION_ZLIB (c.comp (subBytes g op))
        (List.replicate (opUSize g op) junk) (opUSize g op) = subBytes g op := by
      unfold doUncompression
      rw [if_neg (by norm_num [COMPRESSION_ZLIB, COMPRESSION_NONE]), if_pos rfl]
      rw [c.inv]
      rw [husize, List.take_length]
      exact writeSlice_zero_full (by rw [List.length_replicate])
    rw [huncomp]
    intro row col hrow hcol
    rw [expandPartial_getD hsubLen hbufY hxle hyle hrow hcol 0]
    exact compactTile_getD hrow hcol hall 0
  · rw [if_neg hpart]
    push_neg at hpart
    obtain ⟨hex, hey⟩ := hpart
    have hfull : subBytes g op = op.data := by
      unfold subBytes
      rw [hex, hey]
      exact compactTile_full hlenY
    have hout : doUncompression c COMPRESSION_ZLIB (c.comp (subBytes g op)) buf
        (opUSize g op) = op.data := by
      unfold doUncompression
      rw [if_neg (by norm_num [COMPRESSION_ZLIB, COMPRESSION_NONE]), if_pos rfl]
      rw [c.inv]
      rw [husize, List.take_length, hfull]
      exact writeSlice_zero_full (by rw [hbuf, ← hlen])
    rw [hout]
    intro row col _ _
    rfl

/-- A stored tile stays stored when the file grows (the footer is appended
after the payload) and the index list is carried over unchanged. -/
theorem TileStored_extend {c : Codec} {g : BandGeom} {ds : DState} {op : WriteOp}
    (h : TileStored c g ds op) (suffix : List Nat) (access : Access) :
    TileStored c g ⟨ds.file ++ suffix, ds.index, access⟩ op := by
  obtain ⟨off, hlk, hslice, hbound⟩ := h
  refine ⟨off, hlk, ?_, ?_⟩
  · rw [slice_append hbound]
    exact hslice
  · rw [List.length_append]
    omega

/-- Claim C1: every tile written during a write session under key
`(0, band, x, y)` and read back after Close and reopen delivers, on the
tile's valid sub-extent, exactly the bytes originally submitted:
`IWriteBlock` compacts and compresses exactly the valid pixels, Close/Open
round-trip the tile index byte for byte, and `IReadBlock` decompresses and,
for partial edge tiles, re-expands row by row, leaving the valid region
bit-identical to the input (the codec is an opaque inverse pair). -/
theorem claim_C1_tile_roundtrip (c : Codec) (flags : Nat) (g : BandGeom)
    (info : CloseInfo) (ops : List WriteOp) (buf : List Nat) (junk : Nat)
    (hvalid : ∀ op ∈ ops, validOp g op)
    (hdist : List.Pairwise (fun a b => opKey a ≠ opKey b) ops)
    (hinfo : closeWF c info)
    (hgx : info.rasterX = g.rasterX) (hgy : info.rasterY = g.rasterY)
    (hgt : info.tileSize = g.blockX) (hsq : g.blockY = g.blockX)
    (htiles : tilesWF (runWrites c g (CreateDS flags) ops).index)
    (hfit : (runWrites c g (CreateDS flags) ops).file.length < 2 ^ 64)
    (hbuf : buf.length = g.blockX * g.blockY * g.ts) :
    openDataset (closeFile c (runWrites c g (CreateDS flags) ops) info) =
      some ⟨decide (leDec (((runWrites c g (CreateDS flags) ops).file.drop 7).take 4) % 2 = 1),
        info.dataType, info.rasterX, info.rasterY, info.tileSize,
        (runWrites c g (CreateDS flags) ops).index⟩ ∧
    ∀ op ∈ ops,
      ReadGivesBack c g
        ⟨closeFile c (runWrites c g (CreateDS flags) ops) info,
          (runWrites c g (CreateDS flags) ops).index, Access.readonly⟩ op buf junk := by
  obtain ⟨suf, hpre⟩ := runWrites_file_prefix c g ops (CreateDS flags)
  have hprelen : (CreateDS flags).file.length = 11 := by
    simp [CreateDS, emuPreambleBytes, strBytes, u32le, length_leBytes]
  have hfwf : dsFileWF (runWrites c g (CreateDS flags) ops) := by
    refine ⟨?_, ?_, hfit⟩
    · rw [hpre]
      rw [List.take_append_of_le_length (by rw [hprelen]; omega)]
      have : (CreateDS flags).file.take 3 = strBytes "EMU" := by
        simp only [CreateDS, emuPreambleBytes]
        rw [List.take_append_of_le_length (by simp [strBytes])]
        rfl
      exact this
    · rw [hpre, List.length_append, hprelen]
      omega
  constructor
  · exact openDataset_closeFile hfwf hinfo htiles
  · intro op hop
    have hstored : TileStored c g (runWrites c g (CreateDS flags) ops) op :=
      runWrites_stores ops (CreateDS flags) hvalid (fun _ _ => rfl) hdist op hop
    have hclose : closeFile c (runWrites c g (CreateDS flags) ops) info =
        (runWrites c g (CreateDS flags) ops).file ++
          (hdrMagic ++ (footerCore c info ++
            (u64le (runWrites c g (CreateDS flags) ops).index.length ++
              ((runWrites c g (CreateDS flags) ops).index.flatMap tileEntryBytes ++
                u64le (runWrites c g (CreateDS flags) ops).file.length)))) := by
      simp only [closeFile, List.append_assoc]
    rw [hclose]
    exact IReadBlock_of_stored junk rfl (TileStored_extend hstored _ _)
      (hvalid op hop) hbuf

/-- Witness for C1: a 3×3 raster, one full and one partial tile written,
closed, reopened, and both tiles read back bit-identically. -/
theorem claim_C1_tile_roundtrip_witness :
    openDataset (closeFile idCodec (runWrites idCodec wGeom (CreateDS 0) wOps) wInfo) =
      some ⟨decide (leDec (((runWrites idCodec wGeom (CreateDS 0) wOps).file.drop 7).take 4) % 2 = 1),
        wInfo.dataType, wInfo.rasterX, wInfo.rasterY, wInfo.tileSize,
        (runWrites idCodec wGeom (CreateDS 0) wOps).index⟩ ∧
    ∀ op ∈ wOps,
      ReadGivesBack idCodec wGeom
        ⟨closeFile idCodec (runWrites idCodec wGeom (CreateDS 0) wOps) wInfo,
          (runWrites idCodec wGeom (CreateDS 0) wOps).index, Access.readonly⟩ op
        [0, 0, 0, 0] 0 :=
  claim_C1_tile_roundtrip idCodec 0 wGeom wInfo wOps [0, 0, 0, 0] 0
    (by decide) (by decide)
    (by refine ⟨by decide, by decide, by decide, by decide, by decide, by decide,
      by decide, ?_, by decide⟩; intro b hb; cases hb)
    rfl rfl rfl rfl (by decide) (by decide) (by decide)

/-- Claim C2 (code bug): `getTileOffset` uses `unordered_map::operator[]`,
which default-inserts `{0,0,0}` on a missing key and never throws, so the
`std::out_of_range` handler in `IReadBlock` is dead code: a read of a key
absent from the tile index does not fail with the "Couldn't find index for
block" error; it records the bogus key, seeks to offset 0, treats the first
preamble byte `'E'` as the compression discriminant, and returns `CE_None`
with the caller's buffer untouched. -/
theorem claim_C2_missing_tile_read_proceeds :
    IReadBlock idCodec wGeom c2State 1 0 0 [7, 7, 7, 7] 0 =
      (⟨c2State.file, [(⟨0, 1, 0, 0⟩, ⟨0, 0, 0⟩)], Access.readonly⟩,
        Except.ok [7, 7, 7, 7]) := rfl

/-- Claim C4: a block write records under its key the entry
`(offset at the record, compressed size, nXValid * nYValid * typeSize)` and
appends exactly the discriminant plus the compressed compacted payload; for
a full tile the compacted payload is the caller's buffer itself. -/
theorem claim_C4_write_records (c : Codec) (g : BandGeom) (ds : DState) (op : WriteOp)
    (hval : validOp g op) (hfresh : lookupTile ds.index (opKey op) = none) :
    (IWriteBlock c g ds op.band op.x op.y op.data).file =
      ds.file ++ COMPRESSION_ZLIB :: c.comp (subBytes g op) ∧
    lookupTile (IWriteBlock c g ds op.band op.x op.y op.data).index (opKey op) =
      some ⟨ds.file.length, (c.comp (subBytes g op)).length,
        nValid g.rasterX g.blockX op.x * nValid g.rasterY g.blockY op.y * g.ts⟩ ∧
    subBytes g op = compactTile g (nValid g.rasterX g.blockX op.x)
      (nValid g.rasterY g.blockY op.y) op.data ∧
    (nValid g.rasterX g.blockX op.x = g.blockX →
      nValid g.rasterY g.blockY op.y = g.blockY → subBytes g op = op.data) := by
  obtain ⟨hx, hy, hlen⟩ := hval
  have heq := @IWriteBlock_eq c g ds op.band op.x op.y op.data hlen
  have hop : (⟨op.band, op.x, op.y, op.data⟩ : WriteOp) = op := rfl
  rw [hop] at heq
  refine ⟨?_, ?_, rfl, ?_⟩
  · rw [heq]
    rfl
  · rw [heq]
    simp only [setTileOffset_of_none hfresh]
    exact lookupTile_append_fresh hfresh

  · intro h1 h2
    unfold subBytes
    rw [h1, h2]
    refine compactTile_full ?_
    rw [hlen]
    ring

/-- Witness for C4: the partial edge tile (1,0) of the 3×3 raster. -/
theorem claim_C4_write_records_witness :
    (IWriteBlock idCodec wGeom (CreateDS 0) 1 1 0 [5, 6, 7, 8]).file =
      (CreateDS 0).file ++ COMPRESSION_ZLIB ::
        idCodec.comp (subBytes wGeom ⟨1, 1, 0, [5, 6, 7, 8]⟩) ∧
    lookupTile (IWriteBlock idCodec wGeom (CreateDS 0) 1 1 0 [5, 6, 7, 8]).index
        (opKey ⟨1, 1, 0, [5, 6, 7, 8]⟩) =
      some ⟨(CreateDS 0).file.length,
        (idCodec.comp (subBytes wGeom ⟨1, 1, 0, [5, 6, 7, 8]⟩)).length,
        nValid wGeom.rasterX wGeom.blockX 1 * nValid wGeom.rasterY wGeom.blockY 0 *
          wGeom.ts⟩ ∧
    subBytes wGeom ⟨1, 1, 0, [5, 6, 7, 8]⟩ =
      compactTile wGeom (nValid wGeom.rasterX wGeom.blockX 1)
        (nValid wGeom.rasterY wGeom.blockY 0) [5, 6, 7, 8] ∧
    (nValid wGeom.rasterX wGeom.blockX 1 = wGeom.blockX →
      nValid wGeom.rasterY wGeom.blockY 0 = wGeom.blockY →
      subBytes wGeom ⟨1, 1, 0, [5, 6, 7, 8]⟩ = [5, 6, 7, 8]) :=
  claim_C4_write_records idCodec wGeom (CreateDS 0) ⟨1, 1, 0, [5, 6, 7, 8]⟩
    (by decide) rfl

/-- Claim C6: the footer written by Close begins with the four bytes
`"HDR\0"` at the captured header offset, the tile-count field written in
the footer equals the number of entries of the in-memory tile index at
Close, the final 8 bytes of the file are exactly the header offset, and
following that trailing pointer lands on `"HDR\0"`. -/
theorem claim_C6_footer_structure (c : Codec) (ds : DState) (info : CloseInfo)
    (hlen : ds.file.length < 2 ^ 64) (hcnt : ds.index.length < 2 ^ 64) :
    ((closeFile c ds info).drop ds.file.length).take 4 = hdrMagic ∧
    leDec (((closeFile c ds info).drop
        (ds.file.length + 4 + (footerCore c info).length)).take 8) =
      ds.index.length ∧
    (closeFile c ds info).drop ((closeFile c ds info).length - 8) =
      u64le ds.file.length ∧
    leDec ((closeFile c ds info).drop ((closeFile c ds info).length - 8)) =
      ds.file.length ∧
    ((closeFile c ds info).drop
        (leDec ((closeFile c ds info).drop ((closeFile c ds info).length - 8)))).take 4 =
      hdrMagic := by
  have hsplit1 : closeFile c ds info = ds.file ++
      (hdrMagic ++ (footerCore c info ++ (u64le ds.index.length ++
        (ds.index.flatMap tileEntryBytes ++ u64le ds.file.length)))) := by
    simp only [closeFile, List.append_assoc]
  have hsplit2 : closeFile c ds info =
      (ds.file ++ hdrMagic ++ footerCore c info) ++
        (u64le ds.index.length ++
          (ds.index.flatMap tileEntryBytes ++ u64le ds.file.length)) := by
    simp only [closeFile, List.append_assoc]
  have hA : ((closeFile c ds info).drop ds.file.length).take 4 = hdrMagic := by
    rw [hsplit1, List.drop_left]
    exact List.take_left hdrMagic _
  have hN : ds.file.length + 4 + (footerCore c info).length =
      (ds.file ++ hdrMagic ++ footerCore c info).length := by
    simp only [List.length_append, hdrMagic, List.length_cons, List.length_nil]
    try omega
  have hB : leDec (((closeFile c ds info).drop
      (ds.file.length + 4 + (footerCore c info).length)).take 8) = ds.index.length := by
    rw [hN, hsplit2, List.drop_left]
    have ht : (u64le ds.index.length ++
        (ds.index.flatMap tileEntryBytes ++ u64le ds.file.length)).take 8 =
        u64le ds.index.length := by
      have := List.take_left (u64le ds.index.length)
        (ds.index.flatMap tileEntryBytes ++ u64le ds.file.length)
      rw [length_u64le] at this
      exact this
    rw [ht]
    exact leDec_u64le hcnt
  have hC : (closeFile c ds info).drop ((closeFile c ds info).length - 8) =
      u64le ds.file.length := by
    have hB2 : closeFile c ds info =
        (ds.file ++ hdrMagic ++ footerCore c info ++ u64le ds.index.length ++
          ds.index.flatMap tileEntryBytes) ++ u64le ds.file.length := by
      simp only [closeFile, List.append_assoc]
    rw [hB2]
    have hl : ((ds.file ++ hdrMagic ++ footerCore c info ++ u64le ds.index.length ++
        ds.index.flatMap tileEntryBytes) ++ u64le ds.file.length).length - 8 =
        (ds.file ++ hdrMagic ++ footerCore c info ++ u64le ds.index.length ++
          ds.index.flatMap tileEntryBytes).length := by
      rw [List.length_append, length_u64le]
      omega
    rw [hl, List.drop_left]
  have hD : leDec ((closeFile c ds info).drop ((closeFile c ds info).length - 8)) =
      ds.file.length := by
    rw [hC]
    exact leDec_u64le hlen
  exact ⟨hA, hB, hC, hD, by rw [hD]; exact hA⟩

/-- Witness for C6: a dataset with one recorded tile, closed with the
`wInfo` footer content. -/
theorem claim_C6_footer_structure_witness :
    ((closeFile idCodec (runWrites idCodec wGeom (CreateDS 0) wOps) wInfo).drop
        (runWrites idCodec wGeom (CreateDS 0) wOps).file.length).take 4 = hdrMagic ∧
    leDec (((closeFile idCodec (runWrites idCodec wGeom (CreateDS 0) wOps) wInfo).drop
        ((runWrites idCodec wGeom (CreateDS 0) wOps).file.length + 4 +
          (footerCore idCodec wInfo).length)).take 8) =
      (runWrites idCodec wGeom (CreateDS 0) wOps).index.length ∧
    (closeFile idCodec (runWrites idCodec wGeom (CreateDS 0) wOps) wInfo).drop
        ((closeFile idCodec (runWrites idCodec wGeom (CreateDS 0) wOps) wInfo).length - 8) =
      u64le (runWrites idCodec wGeom (CreateDS 0) wOps).file.length ∧
    leDec ((closeFile idCodec (runWrites idCodec wGeom (CreateDS 0) wOps) wInfo).drop
        ((closeFile idCodec (runWrites idCodec wGeom (CreateDS 0) wOps) wInfo).length - 8)) =
      (runWrites idCodec wGeom (CreateDS 0) wOps).file.length ∧
    ((closeFile idCodec (runWrites idCodec wGeom (CreateDS 0) wOps) wInfo).drop
        (leDec ((closeFile idCodec (runWrites idCodec wGeom (CreateDS 0) wOps) wInfo).drop
          ((closeFile idCodec (runWrites idCodec wGeom (CreateDS 0) wOps) wInfo).length - 8)))).take 4 =
      hdrMagic :=
  claim_C6_footer_structure idCodec (runWrites idCodec wGeom (CreateDS 0) wOps) wInfo
    (by decide) (by decide)

/-- Claim C8: in a write-mode (update) container every `IReadBlock` call
fails with the not-supported error before the mutex is taken, and neither
the file nor the tile index is touched. -/
theorem claim_C8_read_in_update_mode (c : Codec) (g : BandGeom) (ds : DState)
    (band x y : Nat) (buf : List Nat) (junk : Nat) (h : ds.access = Access.update) :
    IReadBlock c g ds band x y buf junk = (ds, Except.error BlockErr.unsupported) := by
  unfold IReadBlock
  rw [h, if_pos rfl]

/-- Witness for C8: a freshly created dataset rejects the read. -/
theorem claim_C8_read_in_update_mode_witness :
    IReadBlock idCodec wGeom (CreateDS 0) 1 0 0 [7, 7, 7, 7] 0 =
      (CreateDS 0, Except.error BlockErr.unsupported) :=
  claim_C8_read_in_update_mode idCodec wGeom (CreateDS 0) 1 0 0 [7, 7, 7, 7] 0 rfl

theorem getTileOffset_fst_preserve {m : TileIndex} {k k2 : EMUTileKey}
    {v : EMUTileValue} (h : lookupTile m k = some v) :
    lookupTile (getTileOffset m k2).1 k = some v := by
  unfold getTileOffset
  cases hlk : lookupTile m k2 with
  | some _ => exact h
  | none => exact lookupTile_append_of_some h _

/-- Claim C9: once a tile key is inserted, every later `getTileOffset` of
that key — across any interleaving of inserts and lookups of the session —
returns the value first inserted; no later operation changes the mapping of
an already-inserted key. -/
theorem claim_C9_insert_stable (m : TileIndex) (k : EMUTileKey) (v : EMUTileValue)
    (ops : List IndexOp) (h : lookupTile m k = some v) :
    lookupTile (runIndexOps m ops) k = some v ∧
      (getTileOffset (runIndexOps m ops) k).2 = v := by
  have hpres : ∀ (ops2 : List IndexOp) (m2 : TileIndex), lookupTile m2 k = some v →
      lookupTile (runIndexOps m2 ops2) k = some v := by
    intro ops2
    induction ops2 with
    | nil => intro m2 h2; exact h2
    | cons op rest ih =>
      intro m2 h2
      cases op with
      | set k2 v2 => exact ih _ (setTileOffset_lookup_preserve h2)
      | get k2 => exact ih _ (getTileOffset_fst_preserve h2)
  refine ⟨hpres ops m h, ?_⟩
  have h2 := hpres ops m h
  unfold getTileOffset
  rw [h2]

/-- Witness for C9: a key inserted once survives a duplicate insert, reads
of it, and unrelated traffic. -/
theorem claim_C9_insert_stable_witness :
    lookupTile (runIndexOps [(⟨0, 1, 0, 0⟩, ⟨11, 4, 4⟩)]
        [IndexOp.set ⟨0, 1, 0, 0⟩ ⟨99, 9, 9⟩, IndexOp.get ⟨0, 1, 0, 0⟩,
          IndexOp.set ⟨0, 1, 1, 0⟩ ⟨20, 3, 2⟩, IndexOp.get ⟨0, 2, 0, 0⟩])
      ⟨0, 1, 0, 0⟩ = some ⟨11, 4, 4⟩ ∧
    (getTileOffset (runIndexOps [(⟨0, 1, 0, 0⟩, ⟨11, 4, 4⟩)]
        [IndexOp.set ⟨0, 1, 0, 0⟩ ⟨99, 9, 9⟩, IndexOp.get ⟨0, 1, 0, 0⟩,
          IndexOp.set ⟨0, 1, 1, 0⟩ ⟨20, 3, 2⟩, IndexOp.get ⟨0, 2, 0, 0⟩])
      ⟨0, 1, 0, 0⟩).2 = ⟨11, 4, 4⟩ :=
  claim_C9_insert_stable [(⟨0, 1, 0, 0⟩, ⟨11, 4, 4⟩)] ⟨0, 1, 0, 0⟩ ⟨11, 4, 4⟩
    [IndexOp.set ⟨0, 1, 0, 0⟩ ⟨99, 9, 9⟩, IndexOp.get ⟨0, 1, 0, 0⟩,
      IndexOp.set ⟨0, 1, 1, 0⟩ ⟨20, 3, 2⟩, IndexOp.get ⟨0, 2, 0, 0⟩] rfl

/-! ### C10: the CLOUD_OPTIMISED metadata item is pinned -/

theorem keyUp_eq_61 {b : Nat} : keyUp b = 61 ↔ b = 61 := by
  unfold keyUp
  split <;> omega

theorem mem_cslEntryKey_ne_61 {e : List Nat} {b : Nat}
    (h : b ∈ cslEntryKey e) : b ≠ 61 := by
  have := List.mem_takeWhile_imp h
  exact notByte_true_iff.mp this

theorem keyEqCI_iff {a b : List Nat} :
    keyEqCI a b = true ↔ a.map keyUp = b.map keyUp := by
  simp [keyEqCI]

theorem keyEqCI_refl (a : List Nat) : keyEqCI a a = true :=
  keyEqCI_iff.mpr rfl

theorem keyEqCI_symm {a b : List Nat} (h : keyEqCI a b = true) :
    keyEqCI b a = true :=
  keyEqCI_iff.mpr (keyEqCI_iff.mp h).symm

theorem keyEqCI_trans {a b c : List Nat} (h1 : keyEqCI a b = true)
    (h2 : keyEqCI a c = true) : keyEqCI b c = true :=
  keyEqCI_iff.mpr ((keyEqCI_iff.mp h1).symm.trans (keyEqCI_iff.mp h2))

theorem not_mem_61_of_keyEqCI {e name : List Nat}
    (h : keyEqCI (cslEntryKey e) name = true) : (61 : Nat) ∉ name := by
  intro hmem
  have hmap : (cslEntryKey e).map keyUp = name.map keyUp := keyEqCI_iff.mp h
  have h61 : (61 : Nat) ∈ name.map keyUp :=
    List.mem_map.mpr ⟨61, hmem, keyUp_eq_61.mpr rfl⟩
  rw [← hmap] at h61
  obtain ⟨b, hb, hup⟩ := List.mem_map.mp h61
  exact mem_cslEntryKey_ne_61 hb (keyUp_eq_61.mp hup)

theorem cslEntryKey_mk {name : List Nat} (value : List Nat)
    (h : (61 : Nat) ∉ name) : cslEntryKey (name ++ [61] ++ value) = name := by
  unfold cslEntryKey
  rw [List.append_assoc, List.singleton_append]
  refine takeWhile_append_stop value (fun x hx => ?_) (notByte_self 61)
  exact notByte_true_iff.mpr (fun hc => h (hc ▸ hx))

theorem drop_entry_mk (name value : List Nat) :
    (name ++ [61] ++ value).drop (name.length + 1) = value := by
  have : (name ++ [61]).length = name.length + 1 := by simp
  rw [← this, List.drop_left]

theorem cslFetch_set_self (lst : List (List Nat)) (name value : List Nat)
    (h : (61 : Nat) ∉ name) :
    cslFetchNameValueRaw (cslSetNameValueRaw lst name value) name
      = some value := by
  induction lst with
  | nil =>
    simp only [cslSetNameValueRaw, cslFetchNameValueRaw, cslEntryKey_mk value h,
      keyEqCI_refl, if_true, drop_entry_mk]
  | cons e rest ih =>
    by_cases hk : keyEqCI (cslEntryKey e) name = true
    · simp only [cslSetNameValueRaw, hk, if_true, cslFetchNameValueRaw,
        cslEntryKey_mk value h, keyEqCI_refl, drop_entry_mk]
    · have hkf : keyEqCI (cslEntryKey e) name = false := Bool.eq_false_iff.mpr hk
      simp only [cslSetNameValueRaw, hkf, Bool.false_eq_true, if_false,
        cslFetchNameValueRaw, ih]

theorem cslFetch_set_other (lst : List (List Nat)) (name value other : List Nat)
    (h : (61 : Nat) ∉ name) (hne : keyEqCI other name = false) :
    cslFetchNameValueRaw (cslSetNameValueRaw lst name value) other
      = cslFetchNameValueRaw lst other := by
  have hno : keyEqCI name other = false := by
    by_contra hcon
    rw [Bool.not_eq_false] at hcon
    rw [keyEqCI_symm hcon] at hne
    exact Bool.noConfusion hne
  induction lst with
  | nil =>
    simp only [cslSetNameValueRaw, cslFetchNameValueRaw, cslEntryKey_mk value h,
      hno, Bool.false_eq_true, if_false]
  | cons e rest ih =>
    by_cases hk : keyEqCI (cslEntryKey e) name = true
    · have hko : keyEqCI (cslEntryKey e) other = false := by
        by_contra hcon
        rw [Bool.not_eq_false] at hcon
        rw [keyEqCI_trans hk hcon] at hno
        exact Bool.noConfusion hno
      simp only [cslSetNameValueRaw, hk, if_true, cslFetchNameValueRaw,
        cslEntryKey_mk value h, hno, hko, Bool.false_eq_true, if_false]
    · have hkf : keyEqCI (cslEntryKey e) name = false := Bool.eq_false_iff.mpr hk
      simp only [cslSetNameValueRaw, hkf, Bool.false_eq_true, if_false,
        cslFetchNameValueRaw, ih]

theorem cslFetch_set_preserve {lst : List (List Nat)} {name value k : List Nat}
    {v : List Nat} (hne : keyEqCI name k = false)
    (h : cslFetchNameValueRaw lst k = some v) :
    cslFetchNameValueRaw (cslSetNameValueRaw lst name value) k = some v := by
  induction lst with
  | nil => exact Option.noConfusion h
  | cons e rest ih =>
    by_cases hk : keyEqCI (cslEntryKey e) name = true
    · have h61 : (61 : Nat) ∉ name := not_mem_61_of_keyEqCI hk
      have hek : keyEqCI (cslEntryKey e) k = false := by
        by_contra hcon
        rw [Bool.not_eq_false] at hcon
        rw [keyEqCI_trans hk hcon] at hne
        exact Bool.noConfusion hne
      rw [cslFetchNameValueRaw] at h
      rw [hek] at h
      simp only [Bool.false_eq_true, if_false] at h
      simp only [cslSetNameValueRaw, hk, if_true, cslFetchNameValueRaw,
        cslEntryKey_mk value h61, hne, hek, Bool.false_eq_true, if_false, h]
    · have hkf : keyEqCI (cslEntryKey e) name = false := Bool.eq_false_iff.mpr hk
      by_cases hek : keyEqCI (cslEntryKey e) k = true
      · rw [cslFetchNameValueRaw, hek] at h
        simp only [if_true] at h
        simp only [cslSetNameValueRaw, hkf, Bool.false_eq_true, if_false,
          cslFetchNameValueRaw, hek, if_true, h]
      · have hekf : keyEqCI (cslEntryKey e) k = false := Bool.eq_false_iff.mpr hek
        rw [cslFetchNameValueRaw, hekf] at h
        simp only [Bool.false_eq_true, if_false] at h
        simp only [cslSetNameValueRaw, hkf, Bool.false_eq_true, if_false,
          cslFetchNameValueRaw, hekf, ih h]

theorem cslFetch_run_cloud {ops : List (List Nat × List Nat)}
    {lst : List (List Nat)} {v : List Nat}
    (h : cslFetchNameValueRaw lst CLOUD_OPTIMISED_KEY = some v) :
    cslFetchNameValueRaw (runSetMetadataItems lst ops) CLOUD_OPTIMISED_KEY
      = some v := by
  induction ops generalizing lst with
  | nil => exact h
  | cons op rest ih =>
    show cslFetchNameValueRaw
      (runSetMetadataItems (SetMetadataItem lst op.1 op.2).2 rest)
      CLOUD_OPTIMISED_KEY = some v
    by_cases hco : keyEqCI op.1 CLOUD_OPTIMISED_KEY = true
    · rw [SetMetadataItem, if_pos hco]
      exact ih h
    · rw [SetMetadataItem, if_neg hco]
      rw [Bool.not_eq_true] at hco
      exact ih (cslFetch_set_preserve hco h)

/-- Claim C10: `SetMetadataItem` with the name `CLOUD_OPTIMISED`
(case-insensitively) returns `CE_None` and leaves the list untouched; after
`UpdateMetadataList` pins the flag, any sequence of `SetMetadataItem` calls
leaves `CLOUD_OPTIMISED` equal to `TRUE`/`FALSE` per the construction-time
flag; and `SetMetadataItem` with any other name returns `CE_None`, sets that
key, and leaves every other key unchanged. -/
theorem claim_C10_cloud_optimised_pinned
    (cloud : Bool) (lst0 lst : List (List Nat))
    (ops : List (List Nat × List Nat)) (nameCO name value other : List Nat)
    (h1 : keyEqCI nameCO CLOUD_OPTIMISED_KEY = true)
    (h2 : (61 : Nat) ∉ name)
    (h3 : keyEqCI name CLOUD_OPTIMISED_KEY = false)
    (h4 : keyEqCI other name = false) :
    SetMetadataItem lst nameCO value = (CPLErrT.CE_None, lst) ∧
    cslFetchNameValueRaw
        (runSetMetadataItems (UpdateMetadataList cloud lst0) ops)
        CLOUD_OPTIMISED_KEY
      = some (strBytes (if cloud then "TRUE" else "FALSE")) ∧
    (SetMetadataItem lst name value).1 = CPLErrT.CE_None ∧
    cslFetchNameValueRaw (SetMetadataItem lst name value).2 name
      = some value ∧
    cslFetchNameValueRaw (SetMetadataItem lst name value).2 other
      = cslFetchNameValueRaw lst other := by
  have hset : SetMetadataItem lst name value
      = (CPLErrT.CE_None, cslSetNameValueRaw lst name value) := by
    rw [SetMetadataItem, if_neg (by rw [h3]; exact Bool.noConfusion)]
  refine ⟨?_, ?_, ?_, ?_, ?_⟩
  · rw [SetMetadataItem, if_pos h1]
  · refine cslFetch_run_cloud ?_
    rw [UpdateMetadataList]
    exact cslFetch_set_self lst0 CLOUD_OPTIMISED_KEY _ (by decide)
  · rw [hset]
  · rw [hset]
    exact cslFetch_set_self lst name value h2
  · rw [hset]
    exact cslFetch_set_other lst name value other h2 h4

/-- Witness for C10 on a concrete dataset: blocked set of
`cloud_optimised`, pinned flag after an unrelated set, and frame-exact
update of `FOO`. -/
theorem claim_C10_cloud_optimised_pinned_witness :
    SetMetadataItem [strBytes "A=1"] (strBytes "cloud_optimised")
        (strBytes "2") = (CPLErrT.CE_None, [strBytes "A=1"]) ∧
    cslFetchNameValueRaw
        (runSetMetadataItems (UpdateMetadataList true [strBytes "A=1"])
          [(strBytes "FOO", strBytes "2")])
        CLOUD_OPTIMISED_KEY
      = some (strBytes (if true then "TRUE" else "FALSE")) ∧
    (SetMetadataItem [strBytes "A=1"] (strBytes "FOO") (strBytes "2")).1
      = CPLErrT.CE_None ∧
    cslFetchNameValueRaw
        (SetMetadataItem [strBytes "A=1"] (strBytes "FOO") (strBytes "2")).2
        (strBytes "FOO") = some (strBytes "2") ∧
    cslFetchNameValueRaw
        (SetMetadataItem [strBytes "A=1"] (strBytes "FOO") (strBytes "2")).2
        (strBytes "BAR")
      = cslFetchNameValueRaw [strBytes "A=1"] (strBytes "BAR") :=
  claim_C10_cloud_optimised_pinned true [strBytes "A=1"] [strBytes "A=1"]
    [(strBytes "FOO", strBytes "2")] (strBytes "cloud_optimised")
    (strBytes "FOO") (strBytes "2") (strBytes "BAR")
    (by decide) (by decide) (by decide) (by decide)

/-! ### C7: the metadata codec round-trips non-reserved entries -/

theorem entry_reconstruct {e : List Nat} (h : (61 : Nat) ∈ e) :
    cslEntryKey e ++ [61] ++ e.drop ((cslEntryKey e).length + 1) = e := by
  induction e with
  | nil => exact absurd h (List.not_mem_nil 61)
  | cons b bs ih =>
    by_cases hb : b = 61
    · subst hb
      simp [cslEntryKey, List.takeWhile_cons, notByte_self]
    · have hbt : notByte 61 b = true := notByte_true_iff.mpr hb
      have hbs : (61 : Nat) ∈ bs := by
        rcases List.mem_cons.mp h with h61 | h61
        · exact absurd h61.symm hb
        · exact h61
      have hkey : cslEntryKey (b :: bs) = b :: cslEntryKey bs := by
        simp [cslEntryKey, List.takeWhile_cons, hbt]
      rw [hkey]
      simp only [List.length_cons, List.cons_append, List.drop_succ_cons]
      rw [ih hbs]

theorem entry_key_lt {e : List Nat} (h : (61 : Nat) ∈ e) :
    (cslEntryKey e).length < e.length := by
  have := congrArg List.length (entry_reconstruct h)
  simp only [List.length_append, List.length_cons, List.length_nil] at this
  omega

theorem cslSet_append (acc : List (List Nat)) (k v : List Nat)
    (h : ∀ a ∈ acc, keyEqCI (cslEntryKey a) k = false) :
    cslSetNameValueRaw acc k v = acc ++ [k ++ [61] ++ v] := by
  induction acc with
  | nil => rfl
  | cons a rest ih =>
    have ha : keyEqCI (cslEntryKey a) k = false := h a (by simp)
    rw [cslSetNameValueRaw, ha]
    simp only [Bool.false_eq_true, if_false, List.cons_append]
    rw [ih (fun x hx => h x (by simp [hx]))]

theorem fold_csl_append (kept : List (List Nat)) :
    ∀ acc, (∀ e ∈ kept, (61 : Nat) ∈ e) →
    (∀ a ∈ acc, ∀ e ∈ kept,
      keyEqCI (cslEntryKey a) (cslEntryKey e) = false) →
    kept.Pairwise
      (fun a b => keyEqCI (cslEntryKey a) (cslEntryKey b) = false) →
    kept.foldl
      (fun acc e =>
        if (cslEntryKey e).length = e.length then acc
        else cslSetNameValueRaw acc (cslEntryKey e)
          (e.drop ((cslEntryKey e).length + 1)))
      acc = acc ++ kept := by
  induction kept with
  | nil => intro acc _ _ _; simp
  | cons e rest ih =>
    intro acc h61 hacc hpw
    have he61 : (61 : Nat) ∈ e := h61 e (by simp)
    have hne : ¬ (cslEntryKey e).length = e.length := by
      have := entry_key_lt he61
      omega
    rw [List.foldl_cons]
    have hstep :
        (if (cslEntryKey e).length = e.length then acc
          else cslSetNameValueRaw acc (cslEntryKey e)
            (e.drop ((cslEntryKey e).length + 1)))
        = acc ++ [e] := by
      rw [if_neg hne,
        cslSet_append acc _ _ (fun a ha => hacc a ha e (by simp)),
        entry_reconstruct he61]
    rw [hstep]
    have hpw' := List.pairwise_cons.mp hpw
    rw [ih (acc ++ [e]) (fun x hx => h61 x (by simp [hx]))
      (fun a ha e2 he2 => by
        rcases List.mem_append.mp ha with h1 | h1
        · exact hacc a h1 e2 (by simp [he2])
        · rcases List.mem_singleton.mp h1 with rfl
          exact hpw'.1 e2 he2)
      hpw'.2]
    simp

theorem flat_len_ge (kept : List (List Nat)) :
    kept.length ≤ (kept.flatMap (fun e => e ++ [0])).length := by
  induction kept with
  | nil => simp
  | cons e rest ih =>
    simp only [List.flatMap_cons, List.length_append, List.length_cons]
    simp only [List.length_append, List.length_cons, List.length_nil]
    omega

theorem splitNulAux_flat (kept : List (List Nat)) :
    ∀ fuel, (∀ e ∈ kept, e ≠ [] ∧ (0 : Nat) ∉ e) → kept.length + 1 ≤ fuel →
    splitNulAux fuel (kept.flatMap (fun e => e ++ [0]) ++ [0]) = kept := by
  induction kept with
  | nil =>
    intro fuel _ hf
    match fuel, hf with
    | f + 1, _ =>
      simp [splitNulAux, List.takeWhile_cons, notByte_self]
  | cons e rest ih =>
    intro fuel he hf
    match fuel, hf with
    | f + 1, hf =>
      have he0 : (0 : Nat) ∉ e := (he e (by simp)).2
      have hene : e ≠ [] := (he e (by simp)).1
      have hbuf : (e :: rest).flatMap (fun e => e ++ [0]) ++ [0]
          = e ++ 0 :: (rest.flatMap (fun e => e ++ [0]) ++ [0]) := by
        simp [List.flatMap_cons]
      rw [hbuf, splitNulAux]
      have htw : (e ++ 0 :: (rest.flatMap (fun e => e ++ [0]) ++ [0])).takeWhile
          (notByte 0) = e := by
        refine takeWhile_append_stop _ (fun x hx => ?_) (notByte_self 0)
        exact notByte_true_iff.mpr (fun hc => he0 (hc ▸ hx))
      rw [htw]
      have hlen : ¬ e.length = 0 := by
        cases e with
        | nil => exact absurd rfl hene
        | cons x xs => simp
      rw [if_neg hlen]
      have hdrop : (e ++ 0 :: (rest.flatMap (fun e => e ++ [0]) ++ [0])).drop
          (e.length + 1) = rest.flatMap (fun e => e ++ [0]) ++ [0] := by
        have h1 : e ++ 0 :: (rest.flatMap (fun e => e ++ [0]) ++ [0])
            = (e ++ [0]) ++ (rest.flatMap (fun e => e ++ [0]) ++ [0]) := by
          simp
        have h2 : (e ++ [0]).length = e.length + 1 := by simp
        rw [h1, ← h2, List.drop_left]
      rw [hdrop, ih f (fun x hx => he x (by simp [hx])) (by
        simp only [List.length_cons] at hf
        omega)]

theorem foldl_sum_eq (kept : List (List Nat)) :
    ∀ acc, kept.foldl (fun acc e => acc + (e.length + 1)) acc
      = acc + (kept.flatMap (fun e => e ++ [0])).length := by
  induction kept with
  | nil => intro acc; simp
  | cons e rest ih =>
    intro acc
    rw [List.foldl_cons, ih]
    simp only [List.flatMap_cons, List.length_append, List.length_cons,
      List.length_nil]
    omega

theorem doCompressMetadata_empty (c : Codec) (entries : List (List Nat))
    (hk : entries.filter (fun e => !isSpecialKey e) = []) :
    doCompressMetadata c entries = (0, 0, []) := by
  unfold doCompressMetadata
  rw [hk]
  rfl

theorem doCompressMetadata_eq (c : Codec) (entries : List (List Nat))
    (hk : entries.filter (fun e => !isSpecialKey e) ≠ []) :
    doCompressMetadata c entries =
      (((entries.filter (fun e => !isSpecialKey e)).flatMap
          (fun e => e ++ [0]) ++ [0]).length,
        (c.comp ((entries.filter (fun e => !isSpecialKey e)).flatMap
          (fun e => e ++ [0]) ++ [0])).length,
        c.comp ((entries.filter (fun e => !isSpecialKey e)).flatMap
          (fun e => e ++ [0]) ++ [0])) := by
  simp only [doCompressMetadata]
  rw [foldl_sum_eq]
  have hpos : 0 < (entries.filter
      (fun e => !isSpecialKey e)).length := List.length_pos.mpr hk
  have hge := flat_len_ge (entries.filter (fun e => !isSpecialKey e))
  rw [if_neg (by omega)]
  have hz : doCompression c COMPRESSION_ZLIB
      ((entries.filter (fun e => !isSpecialKey e)).flatMap
        (fun e => e ++ [0]) ++ [0])
      = c.comp ((entries.filter (fun e => !isSpecialKey e)).flatMap
        (fun e => e ++ [0]) ++ [0]) := rfl
  rw [hz]
  simp

/-- Claim C7: encoding a metadata list (NUL-free `key=value` entries with
pairwise case-insensitively distinct keys) and decoding recovers exactly the
entries whose keys are outside the reserved
`STATISTICS_*`/`CLOUD_OPTIMISED` set, and when nothing survives the filter
the encoder reports zero for both sizes and an empty payload. -/
theorem claim_C7_metadata_roundtrip (c : Codec) (entries : List (List Nat))
    (hnul : ∀ e ∈ entries, (0 : Nat) ∉ e)
    (heq : ∀ e ∈ entries, (61 : Nat) ∈ e)
    (hdist : entries.Pairwise
      (fun a b => keyEqCI (cslEntryKey a) (cslEntryKey b) = false)) :
    doUncompressMetadata c (doCompressMetadata c entries).2.2
        (doCompressMetadata c entries).2.1 (doCompressMetadata c entries).1
      = entries.filter (fun e => !isSpecialKey e) ∧
    (entries.filter (fun e => !isSpecialKey e) = [] →
      doCompressMetadata c entries = (0, 0, [])) := by
  have hkmem : ∀ e ∈ entries.filter (fun e => !isSpecialKey e), e ∈ entries :=
    fun e he => (List.mem_filter.mp he).1
  have h61k : ∀ e ∈ entries.filter (fun e => !isSpecialKey e),
      (61 : Nat) ∈ e := fun e he => heq e (hkmem e he)
  have hpwk : (entries.filter (fun e => !isSpecialKey e)).Pairwise
      (fun a b => keyEqCI (cslEntryKey a) (cslEntryKey b) = false) :=
    List.Pairwise.sublist (List.filter_sublist entries) hdist
  refine ⟨?_, doCompressMetadata_empty c entries⟩
  by_cases hk : entries.filter (fun e => !isSpecialKey e) = []
  · rw [doCompressMetadata_empty c entries hk, hk]
    rfl
  · rw [doCompressMetadata_eq c entries hk]
    show doUncompressMetadata c
      (c.comp ((entries.filter (fun e => !isSpecialKey e)).flatMap
        (fun e => e ++ [0]) ++ [0]))
      ((c.comp ((entries.filter (fun e => !isSpecialKey e)).flatMap
        (fun e => e ++ [0]) ++ [0])).length)
      (((entries.filter (fun e => !isSpecialKey e)).flatMap
        (fun e => e ++ [0]) ++ [0]).length)
      = entries.filter (fun e => !isSpecialKey e)
    unfold doUncompressMetadata
    rw [List.take_length, c.inv, List.take_length]
    rw [splitNulEntries,
      splitNulAux_flat (entries.filter (fun e => !isSpecialKey e)) _
        (fun e he => ⟨List.ne_nil_of_mem (h61k e he), hnul e (hkmem e he)⟩)
        (by
          have := flat_len_ge (entries.filter (fun e => !isSpecialKey e))
          simp only [List.length_append, List.length_cons, List.length_nil]
          omega)]
    rw [fold_csl_append (entries.filter (fun e => !isSpecialKey e)) []
      h61k (fun a ha => absurd ha (List.not_mem_nil a)) hpwk]
    rfl

/-- Witness for C7 on a concrete list: the reserved
`STATISTICS_MINIMUM` entry is dropped, the two ordinary entries round-trip,
and an all-reserved list encodes to `(0, 0, [])`. -/
theorem claim_C7_metadata_roundtrip_witness :
    doUncompressMetadata idCodec
        (doCompressMetadata idCodec
          [strBytes "FOO=1", strBytes "STATISTICS_MINIMUM=0",
            strBytes "BAR=2"]).2.2
        (doCompressMetadata idCodec
          [strBytes "FOO=1", strBytes "STATISTICS_MINIMUM=0",
            strBytes "BAR=2"]).2.1
        (doCompressMetadata idCodec
          [strBytes "FOO=1", strBytes "STATISTICS_MINIMUM=0",
            strBytes "BAR=2"]).1
      = [strBytes "FOO=1", strBytes "STATISTICS_MINIMUM=0",
          strBytes "BAR=2"].filter (fun e => !isSpecialKey e) ∧
    ([strBytes "FOO=1", strBytes "STATISTICS_MINIMUM=0",
        strBytes "BAR=2"].filter (fun e => !isSpecialKey e) = [] →
      doCompressMetadata idCodec
        [strBytes "FOO=1", strBytes "STATISTICS_MINIMUM=0",
          strBytes "BAR=2"] = (0, 0, [])) :=
  claim_C7_metadata_roundtrip idCodec
    [strBytes "FOO=1", strBytes "STATISTICS_MINIMUM=0", strBytes "BAR=2"]
    (by decide) (by decide) (by decide)

/-! ### C3: the Integer read path under-allocates its scratch buffer -/

/-- Claim C3 (code bug, src/src/emurat.cpp:550): the Integer read path
allocates `length * sizeof(int)` — 4 bytes per row — for the scratch
buffer but then reads 8-byte `int64_t` rows out of it, so only the first
half of each chunk's rows comes from the decompressed stream and the rest
is whatever the heap holds: after writing `[5, 7]` to rows `[0, 2)` of an
Integer column, reading the same range back returns `[5, j]` where `j`
depends on the heap contents beyond the allocation (here modelled by the
`junk` map: all-zero heap gives `0`, all-`0xFF` heap gives `-1`), never
the written `[5, 7]`; and when no chunk has `startIdx ≤ startRow` the
caller's buffer is returned untouched instead of zero-filled. -/
theorem claim_C3_int_read_bug :
    valuesIOIntRead idCodec (fun _ => 0) c3Written 0 0 2 [0, 0] = [5, 0] ∧
    valuesIOIntRead idCodec (fun _ => 255) c3Written 0 0 2 [0, 0]
      = [5, -1] ∧
    valuesIOIntRead idCodec (fun _ => 0) c3Written 0 0 2 [0, 0] ≠ [5, 7] ∧
    valuesIOIntRead idCodec (fun _ => 0) c3NotFound 0 0 2 [9, 9]
      = [9, 9] := by
  refine ⟨by decide, by decide, by decide, by decide⟩

/-! ### C5: chunk lists after Close and reopen -/

/-- Counterexample to C5 as stated: the API permits writing the same row
range twice (`write(col 0, row 0)` twice on a one-row column); each write
appends a fresh chunk for the range, so after Close and reopen the column
holds two chunks whose `[startIdx, startIdx+length)` ranges coincide — the
reopened chunk list is not pairwise non-overlapping. -/
theorem claim_C5_overlap_counterexample :
    ¬ ∀ col ∈ reopenRatCols ⟨c5Sess.cols, c5Sess.rowCount⟩,
      col.chunks.Pairwise chunksDisjoint := by
  decide

theorem ratWriteLoop_chunks {α : Type} (c : Codec) (enc : List α → List Nat) :
    ∀ (fuel : Nat) (file : List Nat) (chunks : List RatChunkRec) (s : Nat)
      (vals : List α), vals.length ≤ fuel →
    ∃ newChs,
      (ratWriteLoop c enc fuel file chunks s vals).2 = chunks ++ newChs ∧
      newChs.Pairwise chunksDisjoint ∧
      ∀ ch ∈ newChs, s ≤ ch.startIdx ∧
        ch.startIdx + ch.length ≤ s + vals.length := by
  intro fuel
  induction fuel with
  | zero =>
    intro file chunks s vals hv
    exact ⟨[], by simp [ratWriteLoop], List.Pairwise.nil, by simp⟩
  | succ f ih =>
    intro file chunks s vals hv
    by_cases h0 : vals.length = 0
    · refine ⟨[], ?_, List.Pairwise.nil, by simp⟩
      simp [ratWriteLoop, h0]
    · have hmax : 0 < MAX_RAT_CHUNK := by decide
      have hpos : 0 < vals.length := Nat.pos_of_ne_zero h0
      have hlen : (vals.drop (min vals.length MAX_RAT_CHUNK)).length ≤ f := by
        rw [List.length_drop]
        omega
      obtain ⟨newChs, heq, hpw, hrange⟩ := ih
        (file ++ COMPRESSION_ZLIB :: doCompression c COMPRESSION_ZLIB
          (enc (vals.take (min vals.length MAX_RAT_CHUNK))))
        (chunks ++ [⟨s, min vals.length MAX_RAT_CHUNK, file.length,
          (doCompression c COMPRESSION_ZLIB
            (enc (vals.take (min vals.length MAX_RAT_CHUNK)))).length⟩])
        (s + min vals.length MAX_RAT_CHUNK)
        (vals.drop (min vals.length MAX_RAT_CHUNK)) hlen
      refine ⟨⟨s, min vals.length MAX_RAT_CHUNK, file.length,
        (doCompression c COMPRESSION_ZLIB
          (enc (vals.take (min vals.length MAX_RAT_CHUNK)))).length⟩ :: newChs,
        ?_, ?_, ?_⟩
      · show (ratWriteLoop c enc (f + 1) file chunks s vals).2 = _
        rw [show ratWriteLoop c enc (f + 1) file chunks s vals
            = ratWriteLoop c enc f
              (file ++ COMPRESSION_ZLIB :: doCompression c COMPRESSION_ZLIB
                (enc (vals.take (min vals.length MAX_RAT_CHUNK))))
              (chunks ++ [⟨s, min vals.length MAX_RAT_CHUNK, file.length,
                (doCompression c COMPRESSION_ZLIB
                  (enc (vals.take (min vals.length MAX_RAT_CHUNK)))).length⟩])
              (s + min vals.length MAX_RAT_CHUNK)
              (vals.drop (min vals.length MAX_RAT_CHUNK)) from by
          rw [ratWriteLoop, if_neg h0]]
        rw [heq, List.append_assoc, List.singleton_append]
      · refine List.Pairwise.cons (fun ch' hch' => ?_) hpw
        exact Or.inl ((hrange ch' hch').1)
      · intro ch hch
        rcases List.mem_cons.mp hch with rfl | hch'
        · exact ⟨Nat.le_refl s, by simp only []; omega⟩
        · obtain ⟨h1, h2⟩ := hrange ch hch'
          rw [List.length_drop] at h2
          exact ⟨by omega, by omega⟩

theorem getD_zero_mem_or (l : List RatColRec) :
    l.getD 0 dummyCol ∈ l ∨ l.getD 0 dummyCol = dummyCol := by
  cases l with
  | nil => exact Or.inr rfl
  | cons a t => exact Or.inl (by simp [List.getD])

theorem applyRatEv_chunks (c : Codec) (st : RatState) (ev : RatWriteEv) :
    ∃ newChs : List RatChunkRec,
      newChs.Pairwise chunksDisjoint ∧
      (∀ ch ∈ newChs, (evRange ev).1 ≤ ch.startIdx ∧
        ch.startIdx + ch.length ≤ (evRange ev).1 + (evRange ev).2) ∧
      ((applyRatEv c st ev).cols = st.cols ∨
        (applyRatEv c st ev).cols
          = st.cols.set 0 { st.cols.getD 0 dummyCol with
              chunks := (st.cols.getD 0 dummyCol).chunks ++ newChs }) := by
  have h0 : ¬ st.cols.length < 0 := Nat.not_lt_zero _
  cases ev with
  | intW s n vals =>
    by_cases hty : (st.cols.getD 0 dummyCol).colType = GFT_Integer
    · by_cases hrow : st.rowCount ≤ s
      · refine ⟨[], List.Pairwise.nil, by simp, Or.inl ?_⟩
        show (valuesIOIntWrite c st 0 s n vals).cols = st.cols
        simp only [valuesIOIntWrite]
        rw [if_neg h0, if_pos hty, if_pos hrow]
      · have hlen : (vals.take (min n (st.rowCount - s))).length
            ≤ min n (st.rowCount - s) := by simp
        obtain ⟨newChs, heq, hpw, hrange⟩ := ratWriteLoop_chunks c encInt64
          (min n (st.rowCount - s)) st.file (st.cols.getD 0 dummyCol).chunks s
          (vals.take (min n (st.rowCount - s))) hlen
        refine ⟨newChs, hpw, ?_, Or.inr ?_⟩
        · intro ch hch
          obtain ⟨h1, h2⟩ := hrange ch hch
          rw [List.length_take] at h2
          exact ⟨h1, by show ch.startIdx + ch.length ≤ s + n; omega⟩
        · show (valuesIOIntWrite c st 0 s n vals).cols = _
          simp only [valuesIOIntWrite]
          rw [if_neg h0, if_pos hty, if_neg hrow]
          show st.cols.set 0 { st.cols.getD 0 dummyCol with
            chunks := (ratWriteLoop c encInt64 (min n (st.rowCount - s))
              st.file (st.cols.getD 0 dummyCol).chunks s
              (vals.take (min n (st.rowCount - s)))).2 } = _
          rw [heq]
    · refine ⟨[], List.Pairwise.nil, by simp, Or.inl ?_⟩
      show (valuesIOIntWrite c st 0 s n vals).cols = st.cols
      simp only [valuesIOIntWrite]
      rw [if_neg h0, if_neg hty]
  | realW s n vals =>
    by_cases hty : (st.cols.getD 0 dummyCol).colType = GFT_Real
    · by_cases hrow : st.rowCount ≤ s
      · refine ⟨[], List.Pairwise.nil, by simp, Or.inl ?_⟩
        show (valuesIORealWrite c st 0 s n vals).cols = st.cols
        simp only [valuesIORealWrite]
        rw [if_neg h0, if_pos hty, if_pos hrow]
      · have hlen : (vals.take (min n (st.rowCount - s))).length
            ≤ min n (st.rowCount - s) := by simp
        obtain ⟨newChs, heq, hpw, hrange⟩ := ratWriteLoop_chunks c encF64
          (min n (st.rowCount - s)) st.file (st.cols.getD 0 dummyCol).chunks s
          (vals.take (min n (st.rowCount - s))) hlen
        refine ⟨newChs, hpw, ?_, Or.inr ?_⟩
        · intro ch hch
          obtain ⟨h1, h2⟩ := hrange ch hch
          rw [List.length_take] at h2
          exact ⟨h1, by show ch.startIdx + ch.length ≤ s + n; omega⟩
        · show (valuesIORealWrite c st 0 s n vals).cols = _
          simp only [valuesIORealWrite]
          rw [if_neg h0, if_pos hty, if_neg hrow]
          show st.cols.set 0 { st.cols.getD 0 dummyCol with
            chunks := (ratWriteLoop c encF64 (min n (st.rowCount - s))
              st.file (st.cols.getD 0 dummyCol).chunks s
              (vals.take (min n (st.rowCount - s)))).2 } = _
          rw [heq]
    · refine ⟨[], List.Pairwise.nil, by simp, Or.inl ?_⟩
      show (valuesIORealWrite c st 0 s n vals).cols = st.cols
      simp only [valuesIORealWrite]
      rw [if_neg h0, if_neg hty]
  | strW s n vals =>
    by_cases hty : (st.cols.getD 0 dummyCol).colType = GFT_String
    · by_cases hrow : st.rowCount ≤ s
      · refine ⟨[], List.Pairwise.nil, by simp, Or.inl ?_⟩
        show (valuesIOStrWrite c st 0 s n vals).cols = st.cols
        simp only [valuesIOStrWrite]
        rw [if_neg h0, if_pos hty, if_pos hrow]
      · have hlen : (vals.take (min n (st.rowCount - s))).length
            ≤ min n (st.rowCount - s) := by simp
        obtain ⟨newChs, heq, hpw, hrange⟩ := ratWriteLoop_chunks c encStrs
          (min n (st.rowCount - s)) st.file (st.cols.getD 0 dummyCol).chunks s
          (vals.take (min n (st.rowCount - s))) hlen
        refine ⟨newChs, hpw, ?_, Or.inr ?_⟩
        · intro ch hch
          obtain ⟨h1, h2⟩ := hrange ch hch
          rw [List.length_take] at h2
          exact ⟨h1, by show ch.startIdx + ch.length ≤ s + n; omega⟩
        · show (valuesIOStrWrite c st 0 s n vals).cols = _
          simp only [valuesIOStrWrite]
          rw [if_neg h0, if_pos hty, if_neg hrow]
          show st.cols.set 0 { st.cols.getD 0 dummyCol with
            chunks := (ratWriteLoop c encStrs (min n (st.rowCount - s))
              st.file (st.cols.getD 0 dummyCol).chunks s
              (vals.take (min n (st.rowCount - s)))).2 } = _
          rw [heq]
    · refine ⟨[], List.Pairwise.nil, by simp, Or.inl ?_⟩
      show (valuesIOStrWrite c st 0 s n vals).cols = st.cols
      simp only [valuesIOStrWrite]
      rw [if_neg h0, if_neg hty]

theorem runRatSession_chunks_disjoint (c : Codec) :
    ∀ (evs : List RatWriteEv) (st : RatState),
    (∀ col ∈ st.cols, col.chunks.Pairwise chunksDisjoint) →
    (∀ col ∈ st.cols, ∀ ch ∈ col.chunks, ∀ ev ∈ evs,
      rangesDisjoint (ch.startIdx, ch.length) (evRange ev)) →
    evs.Pairwise (fun a b => rangesDisjoint (evRange a) (evRange b)) →
    ∀ col ∈ (runRatSession c st evs).cols,
      col.chunks.Pairwise chunksDisjoint := by
  intro evs
  induction evs with
  | nil => intro st h1 _ _; exact h1
  | cons ev evs ih =>
    intro st h1 h2 h3
    obtain ⟨newChs, hpw, hrange, hcols⟩ := applyRatEv_chunks c st ev
    have h3' := List.pairwise_cons.mp h3
    have hmemchunks : ∀ col ∈ (applyRatEv c st ev).cols,
        col.chunks.Pairwise chunksDisjoint := by
      rcases hcols with hsame | hset
      · rw [hsame]; exact h1
      · rw [hset]
        intro col hcol
        rcases List.mem_or_eq_of_mem_set hcol with hmem | rfl
        · exact h1 col hmem
        · refine List.pairwise_append.mpr ⟨?_, hpw, ?_⟩
          · rcases getD_zero_mem_or st.cols with hm | hd
            · exact h1 _ hm
            · rw [hd]; exact List.Pairwise.nil
          · intro a ha b hb
            have hold : rangesDisjoint (a.startIdx, a.length) (evRange ev) := by
              rcases getD_zero_mem_or st.cols with hm | hd
              · exact h2 _ hm a ha ev (by simp)
              · rw [hd] at ha; exact absurd ha (List.not_mem_nil a)
            obtain ⟨hb1, hb2⟩ := hrange b hb
            rcases hold with h | h
            · have h' : a.startIdx + a.length ≤ (evRange ev).1 := h
              exact Or.inl (by omega)
            · have h' : (evRange ev).1 + (evRange ev).2 ≤ a.startIdx := h
              exact Or.inr (by omega)
    have hmemev : ∀ col ∈ (applyRatEv c st ev).cols, ∀ ch ∈ col.chunks,
        ∀ ev2 ∈ evs,
        rangesDisjoint (ch.startIdx, ch.length) (evRange ev2) := by
      rcases hcols with hsame | hset
      · rw [hsame]
        intro col hcol ch hch ev2 hev2
        exact h2 col hcol ch hch ev2 (by simp [hev2])
      · rw [hset]
        intro col hcol ch hch ev2 hev2
        rcases List.mem_or_eq_of_mem_set hcol with hmem | rfl
        · exact h2 col hmem ch hch ev2 (by simp [hev2])
        · rcases List.mem_append.mp hch with hold | hnew
          · rcases getD_zero_mem_or st.cols with hm | hd
            · exact h2 _ hm ch hold ev2 (by simp [hev2])
            · rw [hd] at hold; exact absurd hold (List.not_mem_nil ch)
          · obtain ⟨hc1, hc2⟩ := hrange ch hnew
            rcases h3'.1 ev2 hev2 with h | h
            · have h' : (evRange ev).1 + (evRange ev).2 ≤ (evRange ev2).1 := h
              exact Or.inl (show ch.startIdx + ch.length ≤ (evRange ev2).1 by
                omega)
            · have h' : (evRange ev2).1 + (evRange ev2).2 ≤ (evRange ev).1 := h
              exact Or.inr (show (evRange ev2).1 + (evRange ev2).2
                ≤ ch.startIdx by omega)
    exact ih (applyRatEv c st ev) hmemchunks hmemev h3'.2

/-- Claim C5 (corrected): for an initially chunk-free RAT, after any
session of writes and a Close / reopen of the index, every column's chunk
list is sorted in non-decreasing `startIdx` order; and the chunk ranges are
pairwise non-overlapping provided the session's declared write row ranges
are pairwise disjoint (without that proviso overlapping chunks survive the
reopen, see the counterexample). -/
theorem claim_C5_reopen_sorted_disjoint (c : Codec) (st0 : RatState)
    (evs : List RatWriteEv)
    (hempty : ∀ col ∈ st0.cols, col.chunks = ([] : List RatChunkRec))
    (hdisj : evs.Pairwise (fun a b => rangesDisjoint (evRange a) (evRange b)))
    (hwf : ratWF ⟨(runRatSession c st0 evs).cols,
      (runRatSession c st0 evs).rowCount⟩) :
    ∀ col ∈ reopenRatCols ⟨(runRatSession c st0 evs).cols,
        (runRatSession c st0 evs).rowCount⟩,
      col.chunks.Pairwise chunkLE ∧ col.chunks.Pairwise chunksDisjoint := by
  have hparse := ReadIndexParse_spec hwf []
  rw [List.append_nil] at hparse
  have hre : reopenRatCols ⟨(runRatSession c st0 evs).cols,
      (runRatSession c st0 evs).rowCount⟩
      = (runRatSession c st0 evs).cols.map sortCol := by
    simp only [reopenRatCols, hparse]
  rw [hre]
  intro col hcol
  obtain ⟨col0, hcol0, rfl⟩ := List.mem_map.mp hcol
  have hd : col0.chunks.Pairwise chunksDisjoint :=
    runRatSession_chunks_disjoint c evs st0
      (fun col hc => by rw [hempty col hc]; exact List.Pairwise.nil)
      (fun col hc ch hch => by
        rw [hempty col hc] at hch
        exact absurd hch (List.not_mem_nil ch))
      hdisj col0 hcol0
  constructor
  · exact sortChunks_sorted col0.chunks
  · exact ((sortChunks_perm col0.chunks).pairwise_iff
      (fun h => Or.symm h)).mpr hd

/-- Witness for C5 on a two-row Integer column with two disjoint writes
(rows 0 and 1): the reopened column's chunk list is sorted and
non-overlapping. -/
theorem claim_C5_reopen_sorted_disjoint_witness :
    ((reopenRatCols ⟨(runRatSession idCodec
        ⟨[], [⟨strBytes "col", GFT_Integer, []⟩], 2⟩
        [RatWriteEv.intW 0 1 [1], RatWriteEv.intW 1 1 [2]]).cols,
      (runRatSession idCodec ⟨[], [⟨strBytes "col", GFT_Integer, []⟩], 2⟩
        [RatWriteEv.intW 0 1 [1], RatWriteEv.intW 1 1 [2]]).rowCount⟩).getD 0
          dummyCol).chunks.Pairwise chunkLE ∧
    ((reopenRatCols ⟨(runRatSession idCodec
        ⟨[], [⟨strBytes "col", GFT_Integer, []⟩], 2⟩
        [RatWriteEv.intW 0 1 [1], RatWriteEv.intW 1 1 [2]]).cols,
      (runRatSession idCodec ⟨[], [⟨strBytes "col", GFT_Integer, []⟩], 2⟩
        [RatWriteEv.intW 0 1 [1], RatWriteEv.intW 1 1 [2]]).rowCount⟩).getD 0
          dummyCol).chunks.Pairwise chunksDisjoint :=
  claim_C5_reopen_sorted_disjoint idCodec
    ⟨[], [⟨strBytes "col", GFT_Integer, []⟩], 2⟩
    [RatWriteEv.intW 0 1 [1], RatWriteEv.intW 1 1 [2]]
    (by decide) (by decide) (by decide)
    ((reopenRatCols ⟨(runRatSession idCodec
        ⟨[], [⟨strBytes "col", GFT_Integer, []⟩], 2⟩
        [RatWriteEv.intW 0 1 [1], RatWriteEv.intW 1 1 [2]]).cols,
      (runRatSession idCodec ⟨[], [⟨strBytes "col", GFT_Integer, []⟩], 2⟩
        [RatWriteEv.intW 0 1 [1], RatWriteEv.intW 1 1 [2]]).rowCount⟩).getD 0
          dummyCol)
    (by decide)

end EMU
